import Mathlib

/-!
Shallow embedding of the verlet_fluid_sim repository (particle.py, quadtree.py,
simulation.py).  Positions, velocities and the other numeric state are modelled
over the rationals; two-dimensional vectors are spelled out componentwise, as
the source itself works on components in the collision and boundary code.
Rendering, colors and pygame input are out of scope, mirroring the spec.
-/

set_option maxHeartbeats 1600000

namespace VerletSim

/-- Particle state from particle.py: position, velocity, acceleration,
previous position (old_pos) and radius; components are separate rational
fields.  The color field is rendering-only and omitted. -/
structure Particle where
  posX : ℚ
  posY : ℚ
  velX : ℚ
  velY : ℚ
  accX : ℚ
  accY : ℚ
  oldX : ℚ
  oldY : ℚ
  radius : ℚ
  deriving DecidableEq

/-- Particle.__init__: stores pos, vel, acc, radius and sets
old_pos = pos - vel. -/
def Particle.init (px py vx vy ax ay r : ℚ) : Particle :=
  { posX := px, posY := py, velX := vx, velY := vy, accX := ax, accY := ay,
    oldX := px - vx, oldY := py - vy, radius := r }

/-- Particle.update: Verlet integration step.  vel := pos - old_pos;
old_pos := pos; pos += vel + acc * delta_time ^ 2; acc := 0. -/
def Particle.update (p : Particle) (dt : ℚ) : Particle :=
  let vx := p.posX - p.oldX
  let vy := p.posY - p.oldY
  { p with
    velX := vx, velY := vy,
    oldX := p.posX, oldY := p.posY,
    posX := p.posX + vx + p.accX * dt ^ 2,
    posY := p.posY + vy + p.accY * dt ^ 2,
    accX := 0, accY := 0 }

/-- Simulation.apply_boundary: four sequential clamp-and-reflect checks, one
per container side, each clamping the position component and negating the
matching velocity component. -/
def apply_boundary (width height : ℚ) (p0 : Particle) : Particle :=
  let p1 := if p0.posX - p0.radius < 0 then
      { p0 with posX := p0.radius, velX := -p0.velX } else p0
  let p2 := if p1.posX + p1.radius > width then
      { p1 with posX := width - p1.radius, velX := -p1.velX } else p1
  let p3 := if p2.posY - p2.radius < 0 then
      { p2 with posY := p2.radius, velY := -p2.velY } else p2
  if p3.posY + p3.radius > height then
    { p3 with posY := height - p3.radius, velY := -p3.velY } else p3

/-- Collision constants read from config.COLLISION in the source; the config
module itself is not under src, so the three constants are parameters of the
embedding. -/
structure CollisionConfig where
  MIN_DISTANCE : ℚ
  MIN_VELOCITY : ℚ
  RESTITUTION : ℚ

/-- Simulation.handle_collision.  The source computes dist as the square root
of dist_sq with numpy; the rationals have no square root function, so dist is
an explicit argument, constrained in the theorems by 0 ≤ dist and
dist ^ 2 = dist_sq.  The branches that return early never read dist.  Returns
the updated pair (p1, p2). -/
def handle_collision (cfg : CollisionConfig) (dist : ℚ) (p1 p2 : Particle) :
    Particle × Particle :=
  let dx := p1.posX - p2.posX
  let dy := p1.posY - p2.posY
  let min_dist := p1.radius + p2.radius
  if |dx| > min_dist ∨ |dy| > min_dist then (p1, p2) else
  let dist_sq := dx * dx + dy * dy
  let min_dist_sq := min_dist * min_dist
  if dist_sq ≥ min_dist_sq ∨ dist_sq < cfg.MIN_DISTANCE then (p1, p2) else
  let inv_dist := if dist > 0 then 1 / dist else 0
  let nx := dx * inv_dist
  let ny := dy * inv_dist
  let p1_mass := p1.radius ^ 2
  let p2_mass := p2.radius ^ 2
  let total_mass := p1_mass + p2_mass
  let p1_mass_share := p2_mass / total_mass
  let p2_mass_share := p1_mass / total_mass
  let delta := min_dist - dist
  let q1 := { p1 with posX := p1.posX + nx * delta * p1_mass_share,
                      posY := p1.posY + ny * delta * p1_mass_share }
  let q2 := { p2 with posX := p2.posX - nx * delta * p2_mass_share,
                      posY := p2.posY - ny * delta * p2_mass_share }
  let rvx := q1.velX - q2.velX
  let rvy := q1.velY - q2.velY
  let vel_normal := rvx * nx + rvy * ny
  if vel_normal > -cfg.MIN_VELOCITY then (q1, q2) else
  let impulse := -(1 + cfg.RESTITUTION) * vel_normal
  let r1 := { q1 with velX := q1.velX + nx * impulse * p1_mass_share,
                      velY := q1.velY + ny * impulse * p1_mass_share }
  let r2 := { q2 with velX := q2.velX - nx * impulse * p2_mass_share,
                      velY := q2.velY - ny * impulse * p2_mass_share }
  let r1f := { r1 with oldX := r1.posX - r1.velX, oldY := r1.posY - r1.velY }
  let r2f := { r2 with oldX := r2.posX - r2.velX, oldY := r2.posY - r2.velY }
  (r1f, r2f)

/-- Concrete collision configuration used by the collision witnesses. -/
def cfgW : CollisionConfig := ⟨1, 1, 1/2⟩

/-- Concrete particle at (3, 4) with radius 5 used by the collision
witnesses. -/
def pW1 : Particle := ⟨3, 4, 0, 0, 0, 0, 0, 0, 5⟩

/-- Concrete particle at the origin with radius 5 used by the collision
witnesses. -/
def pW2 : Particle := ⟨0, 0, 0, 0, 0, 0, 0, 0, 5⟩

/-- Rectangular boundary from quadtree.py: center (x, y) and half-extents
(w, h). -/
structure Boundary where
  x : ℚ
  y : ℚ
  w : ℚ
  h : ℚ
  deriving DecidableEq

/-- Boundary.contains: the particle position lies within center plus or minus
the half-extents on both axes, bounds inclusive. -/
def Boundary.contains (b : Boundary) (p : Particle) : Prop :=
  b.x - b.w ≤ p.posX ∧ p.posX ≤ b.x + b.w ∧
  b.y - b.h ≤ p.posY ∧ p.posY ≤ b.y + b.h

instance (b : Boundary) (p : Particle) : Decidable (b.contains p) :=
  inferInstanceAs (Decidable (_ ∧ _ ∧ _ ∧ _))

/-- Boundary.intersects: true unless the two rectangles are disjoint on some
axis. -/
def Boundary.intersects (b r : Boundary) : Prop :=
  ¬ (r.x - r.w > b.x + b.w ∨ r.x + r.w < b.x - b.w ∨
     r.y - r.h > b.y + b.h ∨ r.y + r.h < b.y - b.h)

instance (b r : Boundary) : Decidable (b.intersects r) :=
  inferInstanceAs (Decidable (¬ (_ ∨ _ ∨ _ ∨ _)))

/-- Quadrant boundary of the northwest child created by QuadTree.subdivide. -/
def childNW (b : Boundary) : Boundary :=
  ⟨b.x - b.w / 2, b.y - b.h / 2, b.w / 2, b.h / 2⟩

/-- Quadrant boundary of the northeast child created by QuadTree.subdivide. -/
def childNE (b : Boundary) : Boundary :=
  ⟨b.x + b.w / 2, b.y - b.h / 2, b.w / 2, b.h / 2⟩

/-- Quadrant boundary of the southwest child created by QuadTree.subdivide. -/
def childSW (b : Boundary) : Boundary :=
  ⟨b.x - b.w / 2, b.y + b.h / 2, b.w / 2, b.h / 2⟩

/-- Quadrant boundary of the southeast child created by QuadTree.subdivide. -/
def childSE (b : Boundary) : Boundary :=
  ⟨b.x + b.w / 2, b.y + b.h / 2, b.w / 2, b.h / 2⟩

/-- QuadTree node from quadtree.py.  A leaf is a node with divided = False
(its four child slots are None); a node constructor is a node with
divided = True and its four children nw, ne, sw, se.  Every node carries its
boundary, capacity and local particle list. -/
inductive QuadTree where
  | leaf (boundary : Boundary) (capacity : ℕ) (particles : List Particle)
  | node (boundary : Boundary) (capacity : ℕ) (particles : List Particle)
      (nw ne sw se : QuadTree)
  deriving DecidableEq

namespace QuadTree

/-- Boundary attribute of a node. -/
def boundary : QuadTree → Boundary
  | leaf b _ _ => b
  | node b _ _ _ _ _ _ => b

/-- Capacity attribute of a node. -/
def capacity : QuadTree → ℕ
  | leaf _ c _ => c
  | node _ c _ _ _ _ _ => c

/-- Local particles list of a node. -/
def particles : QuadTree → List Particle
  | leaf _ _ ps => ps
  | node _ _ ps _ _ _ _ => ps

/-- Divided flag of a node. -/
def divided : QuadTree → Bool
  | leaf _ _ _ => false
  | node _ _ _ _ _ _ _ => true

/-- QuadTree.subdivide: creates four children over the quadrant boundaries,
sharing the capacity, and sets divided; the local particle list is kept and
not redistributed. -/
def subdivide : QuadTree → QuadTree
  | leaf b c ps =>
      node b c ps (leaf (childNW b) c []) (leaf (childNE b) c [])
        (leaf (childSW b) c []) (leaf (childSE b) c [])
  | node b c ps _ _ _ _ =>
      node b c ps (leaf (childNW b) c []) (leaf (childNE b) c [])
        (leaf (childSW b) c []) (leaf (childSE b) c [])

/-- QuadTree.clear: drops all particles and children. -/
def clear (t : QuadTree) : QuadTree :=
  leaf t.boundary t.capacity []

/-- Short-circuiting or-chain of QuadTree.insert over the four children, in
source order nw, ne, sw, se; ins is the recursive insertion call for the
particle being inserted, threading each child's updated state. -/
def insertChildren (ins : QuadTree → Option (QuadTree × Bool))
    (b : Boundary) (c : ℕ) (ps : List Particle)
    (nw ne sw se : QuadTree) : Option (QuadTree × Bool) :=
  match ins nw with
  | none => none
  | some (nw', true) => some (node b c ps nw' ne sw se, true)
  | some (nw', false) =>
    match ins ne with
    | none => none
    | some (ne', true) => some (node b c ps nw' ne' sw se, true)
    | some (ne', false) =>
      match ins sw with
      | none => none
      | some (sw', true) => some (node b c ps nw' ne' sw' se, true)
      | some (sw', false) =>
        match ins se with
        | none => none
        | some (se', true) => some (node b c ps nw' ne' sw' se', true)
        | some (se', false) => some (node b c ps nw' ne' sw' se', false)

/-- QuadTree.insert.  The Python method recurses without bound; fuel bounds
the recursion depth, and a result of none means the call does not return
within that depth (insert at depth fuel or deeper).  Otherwise some (t', r)
is the updated tree and the boolean return value of the source: reject when
the boundary does not contain the particle; append locally when not divided
and below capacity; otherwise subdivide if needed and try the four children
in order, short-circuiting on the first success. -/
def insert : ℕ → QuadTree → Particle → Option (QuadTree × Bool)
  | 0, _, _ => none
  | fuel + 1, t, p =>
    if t.boundary.contains p then
      match t with
      | leaf b c ps =>
        if ps.length < c then some (leaf b c (ps ++ [p]), true)
        else
          insertChildren (fun u => insert fuel u p) b c ps
            (leaf (childNW b) c []) (leaf (childNE b) c [])
            (leaf (childSW b) c []) (leaf (childSE b) c [])
      | node b c ps nw ne sw se =>
          insertChildren (fun u => insert fuel u p) b c ps nw ne sw se
    else some (t, false)

/-- QuadTree.query with an explicit accumulator (the source's found list):
prune when the node boundary does not intersect the range, otherwise append
the local particles contained in the range and recurse into the children in
order nw, ne, sw, se. -/
def query : QuadTree → Boundary → List Particle → List Particle
  | leaf b _ ps, r, found =>
      if b.intersects r then found ++ ps.filter (fun p => r.contains p)
      else found
  | node b _ ps nw ne sw se, r, found =>
      if b.intersects r then
        query se r (query sw r (query ne r
          (query nw r (found ++ ps.filter (fun p => r.contains p)))))
      else found

/-- Sequential insertion of a list of particles, all calls sharing one fuel
bound; none as soon as one insertion runs out of fuel.  The boolean return
value is dropped, as in Simulation.resolve_collisions. -/
def insertAll (fuel : ℕ) : QuadTree → List Particle → Option QuadTree
  | t, [] => some t
  | t, p :: l =>
    match insert fuel t p with
    | some (t', _) => insertAll fuel t' l
    | none => none

/-- All particles stored anywhere in the tree, in traversal order. -/
def storedList : QuadTree → List Particle
  | leaf _ _ ps => ps
  | node _ _ ps nw ne sw se =>
      ps ++ (storedList nw ++ (storedList ne ++ (storedList sw ++ storedList se)))

/-- Containment well-formedness: every particle stored in a subtree lies
within that subtree's root boundary. -/
def wfc : QuadTree → Prop
  | leaf b _ ps => ∀ q ∈ ps, b.contains q
  | node b c ps nw ne sw se =>
      (∀ q ∈ storedList (node b c ps nw ne sw se), b.contains q) ∧
      wfc nw ∧ wfc ne ∧ wfc sw ∧ wfc se

/-- Geometric well-formedness: the children of every divided node carry
exactly the four quadrant boundaries of their parent, as subdivide creates
them. -/
def geomOK : QuadTree → Prop
  | leaf _ _ _ => True
  | node b _ _ nw ne sw se =>
      nw.boundary = childNW b ∧ ne.boundary = childNE b ∧
      sw.boundary = childSW b ∧ se.boundary = childSE b ∧
      geomOK nw ∧ geomOK ne ∧ geomOK sw ∧ geomOK se

/-- Every node of the tree has capacity at least one. -/
def capGE1 : QuadTree → Prop
  | leaf _ c _ => 1 ≤ c
  | node _ c _ nw ne sw se =>
      1 ≤ c ∧ capGE1 nw ∧ capGE1 ne ∧ capGE1 sw ∧ capGE1 se

/-- Every node of the tree has capacity zero. -/
def capZero : QuadTree → Prop
  | leaf _ c _ => c = 0
  | node _ c _ nw ne sw se =>
      c = 0 ∧ capZero nw ∧ capZero ne ∧ capZero sw ∧ capZero se

/-- Node-size invariant: every node stores at most capacity particles
locally. -/
def nodeInv : QuadTree → Prop
  | leaf _ c ps => ps.length ≤ c
  | node _ c ps nw ne sw se =>
      ps.length ≤ c ∧ nodeInv nw ∧ nodeInv ne ∧ nodeInv sw ∧ nodeInv se

/-- Number of nodes whose local particle list contains p. -/
def nodesStoring (p : Particle) : QuadTree → ℕ
  | leaf _ _ ps => if p ∈ ps then 1 else 0
  | node _ _ ps nw ne sw se =>
      (if p ∈ ps then 1 else 0) + nodesStoring p nw + nodesStoring p ne +
        nodesStoring p sw + nodesStoring p se

/-- Insertion never succeeds within any recursion-depth bound: the Python
call never returns. -/
def insertNeverReturns (t : QuadTree) (p : Particle) : Prop :=
  ∀ fuel, insert fuel t p = none

/-- Trees reachable from a freshly built QuadTree by any sequence of insert,
subdivide and clear operations (an insert that runs out of fuel produces no
state). -/
inductive Reachable : QuadTree → Prop
  | fresh (b : Boundary) (c : ℕ) : Reachable (leaf b c [])
  | ins {t t' : QuadTree} {fuel : ℕ} {p : Particle} {r : Bool} :
      Reachable t → insert fuel t p = some (t', r) → Reachable t'
  | subdiv {t : QuadTree} : Reachable t → Reachable t.subdivide
  | clr {t : QuadTree} : Reachable t → Reachable t.clear

end QuadTree

/-- Boundary of the concrete quadtree witnesses. -/
def bW : Boundary := ⟨0, 0, 8, 8⟩

/-- Concrete particle in the northwest quadrant of bW. -/
def qW1 : Particle := ⟨-4, -4, 0, 0, 0, 0, 0, 0, 1⟩

/-- Concrete particle in the southeast quadrant of bW. -/
def qW2 : Particle := ⟨4, 4, 0, 0, 0, 0, 0, 0, 1⟩

/-- Claim C2: Particle.update performs exactly the position-Verlet sequence,
in order: the new velocity is position minus previous position, the new
previous position is the old position, the new position is the old position
plus the new velocity plus acceleration times delta_t squared, and the
acceleration is reset to zero. -/
theorem update_is_position_verlet (p : Particle) (dt : ℚ) :
    (p.update dt).velX = p.posX - p.oldX ∧
    (p.update dt).velY = p.posY - p.oldY ∧
    (p.update dt).oldX = p.posX ∧
    (p.update dt).oldY = p.posY ∧
    (p.update dt).posX = p.posX + (p.posX - p.oldX) + p.accX * dt ^ 2 ∧
    (p.update dt).posY = p.posY + (p.posY - p.oldY) + p.accY * dt ^ 2 ∧
    (p.update dt).accX = 0 ∧
    (p.update dt).accY = 0 := by
  simp [Particle.update]

/-- Claim C8: a particle constructed with zero initial velocity and zero
acceleration is a fixed point of the integrator: its position is unchanged
after any number of update steps, for any delta_t. -/
theorem rest_particle_is_fixed_point (n : ℕ) (px py r dt : ℚ) :
    ((fun p => Particle.update p dt)^[n] (Particle.init px py 0 0 0 0 r)).posX
      = px ∧
    ((fun p => Particle.update p dt)^[n] (Particle.init px py 0 0 0 0 r)).posY
      = py := by
  have key : ∀ m : ℕ,
      ((fun p => Particle.update p dt)^[m] (Particle.init px py 0 0 0 0 r)).posX
        = px ∧
      ((fun p => Particle.update p dt)^[m] (Particle.init px py 0 0 0 0 r)).posY
        = py ∧
      ((fun p => Particle.update p dt)^[m] (Particle.init px py 0 0 0 0 r)).oldX
        = px ∧
      ((fun p => Particle.update p dt)^[m] (Particle.init px py 0 0 0 0 r)).oldY
        = py ∧
      ((fun p => Particle.update p dt)^[m] (Particle.init px py 0 0 0 0 r)).accX
        = 0 ∧
      ((fun p => Particle.update p dt)^[m] (Particle.init px py 0 0 0 0 r)).accY
        = 0 := by
    intro m
    induction m with
    | zero => simp [Particle.init]
    | succ k ih =>
      obtain ⟨h1, h2, h3, h4, h5, h6⟩ := ih
      rw [Function.iterate_succ_apply']
      set q := (fun p => Particle.update p dt)^[k] (Particle.init px py 0 0 0 0 r)
      simp [Particle.update, h1, h2, h3, h4, h5, h6]
  exact ⟨(key n).1, (key n).2.1⟩

/-- Claim C10: apply_boundary changes only position and velocity; the
previous position, the acceleration and the radius are unchanged for every
input state. -/
theorem apply_boundary_frame (width height : ℚ) (p : Particle) :
    (apply_boundary width height p).oldX = p.oldX ∧
    (apply_boundary width height p).oldY = p.oldY ∧
    (apply_boundary width height p).accX = p.accX ∧
    (apply_boundary width height p).accY = p.accY ∧
    (apply_boundary width height p).radius = p.radius := by
  unfold apply_boundary
  split_ifs <;> simp_all <;> (try split_ifs <;> simp_all) <;>
    (try split_ifs <;> simp_all)

/-- Claim C6 (amended): when the particle fits in the container (its diameter
is at most the container width and height), apply_boundary leaves the
position inside the container with at least one radius of clearance on each
side, whatever the pre-state position was. -/
theorem apply_boundary_bounds (width height : ℚ) (p : Particle)
    (hw : 2 * p.radius ≤ width) (hh : 2 * p.radius ≤ height) :
    p.radius ≤ (apply_boundary width height p).posX ∧
    (apply_boundary width height p).posX ≤ width - p.radius ∧
    p.radius ≤ (apply_boundary width height p).posY ∧
    (apply_boundary width height p).posY ≤ height - p.radius := by
  unfold apply_boundary
  split_ifs <;> simp_all <;> (try split_ifs <;> simp_all) <;>
    (try split_ifs <;> simp_all)
  all_goals repeat' apply And.intro
  all_goals linarith

/-- Witness for the amended C6 at a concrete out-of-bounds state. -/
theorem apply_boundary_bounds_witness :
    (2 * (5 : ℚ) ≤ 100 ∧ 2 * (5 : ℚ) ≤ 100) ∧
    ((5 : ℚ) ≤ (apply_boundary 100 100 (Particle.init (-50) 200 0 0 0 0 5)).posX ∧
     (apply_boundary 100 100 (Particle.init (-50) 200 0 0 0 0 5)).posX ≤ 100 - 5 ∧
     (5 : ℚ) ≤ (apply_boundary 100 100 (Particle.init (-50) 200 0 0 0 0 5)).posY ∧
     (apply_boundary 100 100 (Particle.init (-50) 200 0 0 0 0 5)).posY ≤ 100 - 5) :=
  ⟨by norm_num,
   apply_boundary_bounds 100 100 (Particle.init (-50) 200 0 0 0 0 5)
     (by norm_num [Particle.init]) (by norm_num [Particle.init])⟩

/-- Counterexample to C6 as stated: a particle of radius 6 in a 10-by-10
container, arriving from far outside on the left, ends the sub-step at
x = 4, which is below the claimed lower bound radius = 6. -/
theorem apply_boundary_bounds_cex :
    ¬ ((Particle.init (-100) 5 0 0 0 0 6).radius
        ≤ (apply_boundary 10 10 (Particle.init (-100) 5 0 0 0 0 6)).posX) := by
  norm_num [apply_boundary, Particle.init]

lemma handle_collision_radius (cfg : CollisionConfig) (dist : ℚ)
    (p1 p2 : Particle) :
    (handle_collision cfg dist p1 p2).1.radius = p1.radius ∧
    (handle_collision cfg dist p1 p2).2.radius = p2.radius := by
  unfold handle_collision
  split_ifs <;> simp <;> (try split_ifs <;> simp) <;> (try split_ifs <;> simp) <;>
    (try split_ifs <;> simp)

lemma handle_collision_pos (cfg : CollisionConfig) (dist : ℚ)
    (p1 p2 : Particle)
    (hr1 : 0 ≤ p1.radius) (hr2 : 0 ≤ p2.radius)
    (hmin : 0 < cfg.MIN_DISTANCE)
    (hd0 : 0 ≤ dist)
    (hdsq : dist ^ 2 =
      (p1.posX - p2.posX) ^ 2 + (p1.posY - p2.posY) ^ 2)
    (hlow : cfg.MIN_DISTANCE ≤
      (p1.posX - p2.posX) ^ 2 + (p1.posY - p2.posY) ^ 2)
    (hup : (p1.posX - p2.posX) ^ 2 + (p1.posY - p2.posY) ^ 2 <
      (p1.radius + p2.radius) ^ 2) :
    (handle_collision cfg dist p1 p2).1.posX =
      p1.posX + (p1.posX - p2.posX) / dist *
        (p1.radius + p2.radius - dist) *
        (p2.radius ^ 2 / (p1.radius ^ 2 + p2.radius ^ 2)) ∧
    (handle_collision cfg dist p1 p2).1.posY =
      p1.posY + (p1.posY - p2.posY) / dist *
        (p1.radius + p2.radius - dist) *
        (p2.radius ^ 2 / (p1.radius ^ 2 + p2.radius ^ 2)) ∧
    (handle_collision cfg dist p1 p2).2.posX =
      p2.posX - (p1.posX - p2.posX) / dist *
        (p1.radius + p2.radius - dist) *
        (p1.radius ^ 2 / (p1.radius ^ 2 + p2.radius ^ 2)) ∧
    (handle_collision cfg dist p1 p2).2.posY =
      p2.posY - (p1.posY - p2.posY) / dist *
        (p1.radius + p2.radius - dist) *
        (p1.radius ^ 2 / (p1.radius ^ 2 + p2.radius ^ 2)) := by
  set dx := p1.posX - p2.posX with hdx
  set dy := p1.posY - p2.posY with hdy
  set md := p1.radius + p2.radius with hmd
  have hdistpos : 0 < dist := by
    rcases hd0.lt_or_eq with h | h
    · exact h
    · exfalso
      have : (0:ℚ) = dx ^ 2 + dy ^ 2 := by rw [← hdsq, ← h]; ring
      linarith
  have hdsq' : dist * dist = dx * dx + dy * dy := by
    have := hdsq; nlinarith [this]
  have hmdpos : 0 < md := by
    by_contra hcon
    push_neg at hcon
    nlinarith [sq_nonneg dx, sq_nonneg dy]
  have hdl : dist < md := by nlinarith
  have habsx : ¬ (|dx| > md ∨ |dy| > md) := by
    push_neg
    constructor
    · rw [abs_le]; constructor <;> nlinarith
    · rw [abs_le]; constructor <;> nlinarith
  have hsecond : ¬ (dx * dx + dy * dy ≥ md * md ∨
      dx * dx + dy * dy < cfg.MIN_DISTANCE) := by
    push_neg
    constructor
    · nlinarith
    · nlinarith
  have htm : (0:ℚ) < p1.radius ^ 2 + p2.radius ^ 2 := by
    nlinarith [sq_nonneg (p1.radius - p2.radius), sq_nonneg (p1.radius + p2.radius)]
  simp only [handle_collision]
  rw [if_neg habsx, if_neg hsecond, if_pos hdistpos]
  split_ifs with hvn <;> dsimp only <;> refine ⟨?_, ?_, ?_, ?_⟩ <;>
    (field_simp; try ring)

/-- Claim C3: for two overlapping non-degenerate particles (squared distance
at least the configured minimum-distance threshold and below
(r1 + r2) ^ 2), the two separation corrections along the unit normal,
weighted by the opposite mass share with mass proxied by radius squared, sum
exactly to the penetration gap min_dist - dist, the pair ends exactly
min_dist apart, and the mass-weighted midpoint is unchanged. -/
theorem handle_collision_closes_gap (cfg : CollisionConfig) (dist : ℚ)
    (p1 p2 : Particle)
    (hr1 : 0 ≤ p1.radius) (hr2 : 0 ≤ p2.radius)
    (hmin : 0 < cfg.MIN_DISTANCE)
    (hd0 : 0 ≤ dist)
    (hdsq : dist ^ 2 = (p1.posX - p2.posX) ^ 2 + (p1.posY - p2.posY) ^ 2)
    (hlow : cfg.MIN_DISTANCE ≤
      (p1.posX - p2.posX) ^ 2 + (p1.posY - p2.posY) ^ 2)
    (hup : (p1.posX - p2.posX) ^ 2 + (p1.posY - p2.posY) ^ 2 <
      (p1.radius + p2.radius) ^ 2) :
    (((handle_collision cfg dist p1 p2).1.posX - p1.posX) *
        ((p1.posX - p2.posX) / dist) +
      ((handle_collision cfg dist p1 p2).1.posY - p1.posY) *
        ((p1.posY - p2.posY) / dist)) +
    ((p2.posX - (handle_collision cfg dist p1 p2).2.posX) *
        ((p1.posX - p2.posX) / dist) +
      (p2.posY - (handle_collision cfg dist p1 p2).2.posY) *
        ((p1.posY - p2.posY) / dist))
      = (p1.radius + p2.radius) - dist ∧
    ((handle_collision cfg dist p1 p2).1.posX -
        (handle_collision cfg dist p1 p2).2.posX) ^ 2 +
      ((handle_collision cfg dist p1 p2).1.posY -
        (handle_collision cfg dist p1 p2).2.posY) ^ 2
      = (p1.radius + p2.radius) ^ 2 ∧
    (p1.radius ^ 2 * (handle_collision cfg dist p1 p2).1.posX +
        p2.radius ^ 2 * (handle_collision cfg dist p1 p2).2.posX) /
      (p1.radius ^ 2 + p2.radius ^ 2)
      = (p1.radius ^ 2 * p1.posX + p2.radius ^ 2 * p2.posX) /
        (p1.radius ^ 2 + p2.radius ^ 2) ∧
    (p1.radius ^ 2 * (handle_collision cfg dist p1 p2).1.posY +
        p2.radius ^ 2 * (handle_collision cfg dist p1 p2).2.posY) /
      (p1.radius ^ 2 + p2.radius ^ 2)
      = (p1.radius ^ 2 * p1.posY + p2.radius ^ 2 * p2.posY) /
        (p1.radius ^ 2 + p2.radius ^ 2) := by
  obtain ⟨e1, e2, e3, e4⟩ :=
    handle_collision_pos cfg dist p1 p2 hr1 hr2 hmin hd0 hdsq hlow hup
  have hdistpos : 0 < dist := by
    rcases hd0.lt_or_eq with h | h
    · exact h
    · exfalso
      have : (0:ℚ) = (p1.posX - p2.posX) ^ 2 + (p1.posY - p2.posY) ^ 2 := by
        rw [← hdsq, ← h]; ring
      linarith
  have hdne : dist ≠ 0 := ne_of_gt hdistpos
  have htm : (0:ℚ) < p1.radius ^ 2 + p2.radius ^ 2 := by
    nlinarith [sq_nonneg (p1.radius - p2.radius),
      sq_nonneg (p1.radius + p2.radius)]
  have htmne : p1.radius ^ 2 + p2.radius ^ 2 ≠ 0 := ne_of_gt htm
  refine ⟨?_, ?_, ?_, ?_⟩
  · rw [e1, e2, e3, e4]
    trans ((p1.radius + p2.radius - dist) *
      (((p1.posX - p2.posX) ^ 2 + (p1.posY - p2.posY) ^ 2) / dist ^ 2) *
      ((p1.radius ^ 2 + p2.radius ^ 2) / (p1.radius ^ 2 + p2.radius ^ 2)))
    · ring
    · rw [← hdsq, div_self (pow_ne_zero 2 hdne), div_self htmne]; ring
  · rw [e1, e2, e3, e4]
    trans (((p1.posX - p2.posX) ^ 2 + (p1.posY - p2.posY) ^ 2) *
      (1 + ((p1.radius + p2.radius - dist) / dist) *
        ((p1.radius ^ 2 + p2.radius ^ 2) / (p1.radius ^ 2 + p2.radius ^ 2))) ^ 2)
    · ring
    · rw [div_self htmne, ← hdsq]
      field_simp
  · rw [e1, e3]
    field_simp
    ring
  · rw [e2, e4]
    field_simp
    ring

/-- Witness for C3 at a concrete overlapping pair: centers (3, 4) and (0, 0),
radii 5 and 5, dist = 5; the pair ends exactly min_dist = 10 apart. -/
theorem handle_collision_closes_gap_witness :
    (0 ≤ pW1.radius ∧ 0 ≤ pW2.radius ∧ 0 < cfgW.MIN_DISTANCE ∧ (0:ℚ) ≤ 5 ∧
      (5:ℚ) ^ 2 = (pW1.posX - pW2.posX) ^ 2 + (pW1.posY - pW2.posY) ^ 2 ∧
      cfgW.MIN_DISTANCE ≤ (pW1.posX - pW2.posX) ^ 2 + (pW1.posY - pW2.posY) ^ 2 ∧
      (pW1.posX - pW2.posX) ^ 2 + (pW1.posY - pW2.posY) ^ 2 <
        (pW1.radius + pW2.radius) ^ 2) ∧
    ((handle_collision cfgW 5 pW1 pW2).1.posX -
        (handle_collision cfgW 5 pW1 pW2).2.posX) ^ 2 +
      ((handle_collision cfgW 5 pW1 pW2).1.posY -
        (handle_collision cfgW 5 pW1 pW2).2.posY) ^ 2
      = (pW1.radius + pW2.radius) ^ 2 :=
  ⟨⟨by norm_num [pW1], by norm_num [pW2], by norm_num [cfgW], by norm_num,
    by norm_num [pW1, pW2], by norm_num [cfgW, pW1, pW2],
    by norm_num [pW1, pW2]⟩,
   (handle_collision_closes_gap cfgW 5 pW1 pW2 (by norm_num [pW1])
     (by norm_num [pW2]) (by norm_num [cfgW]) (by norm_num)
     (by norm_num [pW1, pW2]) (by norm_num [cfgW, pW1, pW2])
     (by norm_num [pW1, pW2])).2.1⟩

lemma handle_collision_separated (cfg : CollisionConfig) (d : ℚ)
    (q1 q2 : Particle)
    (hsep : (q1.posX - q2.posX) * (q1.posX - q2.posX) +
        (q1.posY - q2.posY) * (q1.posY - q2.posY) ≥
      (q1.radius + q2.radius) * (q1.radius + q2.radius)) :
    handle_collision cfg d q1 q2 = (q1, q2) := by
  unfold handle_collision
  by_cases h1 : |q1.posX - q2.posX| > q1.radius + q2.radius ∨
      |q1.posY - q2.posY| > q1.radius + q2.radius
  · rw [if_pos h1]
  · rw [if_neg h1, if_pos (Or.inl hsep)]

/-- Claim C5: immediately after a first handle_collision call that performed
the separation correction, a second call on the resulting pair (with any
dist argument) is a no-op: the narrow-phase test rejects the
already-separated pair, so positions, velocities and previous positions are
all unchanged. -/
theorem handle_collision_idempotent (cfg : CollisionConfig) (dist : ℚ)
    (p1 p2 : Particle)
    (hr1 : 0 ≤ p1.radius) (hr2 : 0 ≤ p2.radius)
    (hmin : 0 < cfg.MIN_DISTANCE)
    (hd0 : 0 ≤ dist)
    (hdsq : dist ^ 2 = (p1.posX - p2.posX) ^ 2 + (p1.posY - p2.posY) ^ 2)
    (hlow : cfg.MIN_DISTANCE ≤
      (p1.posX - p2.posX) ^ 2 + (p1.posY - p2.posY) ^ 2)
    (hup : (p1.posX - p2.posX) ^ 2 + (p1.posY - p2.posY) ^ 2 <
      (p1.radius + p2.radius) ^ 2)
    (d2 : ℚ) :
    handle_collision cfg d2 (handle_collision cfg dist p1 p2).1
        (handle_collision cfg dist p1 p2).2
      = handle_collision cfg dist p1 p2 := by
  obtain ⟨e1, e2, e3, e4⟩ :=
    handle_collision_pos cfg dist p1 p2 hr1 hr2 hmin hd0 hdsq hlow hup
  obtain ⟨hrad1, hrad2⟩ := handle_collision_radius cfg dist p1 p2
  have hdistpos : 0 < dist := by
    rcases hd0.lt_or_eq with h | h
    · exact h
    · exfalso
      have : (0:ℚ) = (p1.posX - p2.posX) ^ 2 + (p1.posY - p2.posY) ^ 2 := by
        rw [← hdsq, ← h]; ring
      linarith
  have hdne : dist ≠ 0 := ne_of_gt hdistpos
  have htm : (0:ℚ) < p1.radius ^ 2 + p2.radius ^ 2 := by
    nlinarith [sq_nonneg (p1.radius - p2.radius),
      sq_nonneg (p1.radius + p2.radius)]
  have htmne : p1.radius ^ 2 + p2.radius ^ 2 ≠ 0 := ne_of_gt htm
  have hb : ((handle_collision cfg dist p1 p2).1.posX -
        (handle_collision cfg dist p1 p2).2.posX) ^ 2 +
      ((handle_collision cfg dist p1 p2).1.posY -
        (handle_collision cfg dist p1 p2).2.posY) ^ 2
      = (p1.radius + p2.radius) ^ 2 := by
    rw [e1, e2, e3, e4]
    trans (((p1.posX - p2.posX) ^ 2 + (p1.posY - p2.posY) ^ 2) *
      (1 + ((p1.radius + p2.radius - dist) / dist) *
        ((p1.radius ^ 2 + p2.radius ^ 2) / (p1.radius ^ 2 + p2.radius ^ 2))) ^ 2)
    · ring
    · rw [div_self htmne, ← hdsq]
      field_simp
  have hsep : ((handle_collision cfg dist p1 p2).1.posX -
        (handle_collision cfg dist p1 p2).2.posX) *
      ((handle_collision cfg dist p1 p2).1.posX -
        (handle_collision cfg dist p1 p2).2.posX) +
      ((handle_collision cfg dist p1 p2).1.posY -
        (handle_collision cfg dist p1 p2).2.posY) *
      ((handle_collision cfg dist p1 p2).1.posY -
        (handle_collision cfg dist p1 p2).2.posY)
      = ((handle_collision cfg dist p1 p2).1.radius +
          (handle_collision cfg dist p1 p2).2.radius) *
        ((handle_collision cfg dist p1 p2).1.radius +
          (handle_collision cfg dist p1 p2).2.radius) := by
    rw [hrad1, hrad2]
    linear_combination hb
  rw [handle_collision_separated cfg d2 _ _ hsep.ge, Prod.mk.eta]

/-- Witness for C5 at the concrete pair of the C3 witness, with a second
dist argument of 7. -/
theorem handle_collision_idempotent_witness :
    (0 ≤ pW1.radius ∧ 0 ≤ pW2.radius ∧ 0 < cfgW.MIN_DISTANCE ∧ (0:ℚ) ≤ 5 ∧
      (5:ℚ) ^ 2 = (pW1.posX - pW2.posX) ^ 2 + (pW1.posY - pW2.posY) ^ 2 ∧
      cfgW.MIN_DISTANCE ≤ (pW1.posX - pW2.posX) ^ 2 + (pW1.posY - pW2.posY) ^ 2 ∧
      (pW1.posX - pW2.posX) ^ 2 + (pW1.posY - pW2.posY) ^ 2 <
        (pW1.radius + pW2.radius) ^ 2) ∧
    handle_collision cfgW 7 (handle_collision cfgW 5 pW1 pW2).1
        (handle_collision cfgW 5 pW1 pW2).2
      = handle_collision cfgW 5 pW1 pW2 :=
  ⟨⟨by norm_num [pW1], by norm_num [pW2], by norm_num [cfgW], by norm_num,
    by norm_num [pW1, pW2], by norm_num [cfgW, pW1, pW2],
    by norm_num [pW1, pW2]⟩,
   handle_collision_idempotent cfgW 5 pW1 pW2 (by norm_num [pW1])
     (by norm_num [pW2]) (by norm_num [cfgW]) (by norm_num)
     (by norm_num [pW1, pW2]) (by norm_num [cfgW, pW1, pW2])
     (by norm_num [pW1, pW2]) 7⟩

lemma contains_child (b : Boundary) (p : Particle) (h : b.contains p) :
    (childNW b).contains p ∨ (childNE b).contains p ∨
    (childSW b).contains p ∨ (childSE b).contains p := by
  obtain ⟨h1, h2, h3, h4⟩ := h
  simp only [Boundary.contains, childNW, childNE, childSW, childSE]
  rcases le_or_lt p.posX b.x with hx | hx <;>
    rcases le_or_lt p.posY b.y with hy | hy
  · exact Or.inl ⟨by linarith, by linarith, by linarith, by linarith⟩
  · exact Or.inr (Or.inr (Or.inl
      ⟨by linarith, by linarith, by linarith, by linarith⟩))
  · exact Or.inr (Or.inl ⟨by linarith, by linarith, by linarith, by linarith⟩)
  · exact Or.inr (Or.inr (Or.inr
      ⟨by linarith, by linarith, by linarith, by linarith⟩))

lemma contains_intersects (b r : Boundary) (p : Particle)
    (hb : b.contains p) (hr : r.contains p) : b.intersects r := by
  obtain ⟨a1, a2, a3, a4⟩ := hb
  obtain ⟨c1, c2, c3, c4⟩ := hr
  simp only [Boundary.intersects]
  push_neg
  exact ⟨by linarith, by linarith, by linarith, by linarith⟩

namespace QuadTree

lemma insertChildren_cases {ins : QuadTree → Option (QuadTree × Bool)}
    {b : Boundary} {c : ℕ} {ps : List Particle} {nw ne sw se t' : QuadTree}
    {r : Bool}
    (h : insertChildren ins b c ps nw ne sw se = some (t', r)) :
    ∃ nw' ne' sw' se', t' = node b c ps nw' ne' sw' se' ∧
      ((ins nw = some (nw', true) ∧ ne' = ne ∧ sw' = sw ∧ se' = se ∧
          r = true) ∨
       (ins nw = some (nw', false) ∧ ins ne = some (ne', true) ∧
          sw' = sw ∧ se' = se ∧ r = true) ∨
       (ins nw = some (nw', false) ∧ ins ne = some (ne', false) ∧
          ins sw = some (sw', true) ∧ se' = se ∧ r = true) ∨
       (ins nw = some (nw', false) ∧ ins ne = some (ne', false) ∧
          ins sw = some (sw', false) ∧ ins se = some (se', true) ∧
          r = true) ∨
       (ins nw = some (nw', false) ∧ ins ne = some (ne', false) ∧
          ins sw = some (sw', false) ∧ ins se = some (se', false) ∧
          r = false)) := by
  unfold insertChildren at h
  cases hnw : ins nw with
  | none => rw [hnw] at h; simp at h
  | some vnw =>
  obtain ⟨nw1, rnw⟩ := vnw
  rw [hnw] at h
  cases rnw with
  | true =>
    simp only [Option.some.injEq, Prod.mk.injEq] at h
    exact ⟨nw1, ne, sw, se, h.1.symm,
      Or.inl ⟨rfl, rfl, rfl, rfl, h.2.symm⟩⟩
  | false =>
  cases hne : ins ne with
  | none => rw [hne] at h; simp at h
  | some vne =>
  obtain ⟨ne1, rne⟩ := vne
  rw [hne] at h
  cases rne with
  | true =>
    simp only [Option.some.injEq, Prod.mk.injEq] at h
    exact ⟨nw1, ne1, sw, se, h.1.symm,
      Or.inr (Or.inl ⟨rfl, rfl, rfl, rfl, h.2.symm⟩)⟩
  | false =>
  cases hsw : ins sw with
  | none => rw [hsw] at h; simp at h
  | some vsw =>
  obtain ⟨sw1, rsw⟩ := vsw
  rw [hsw] at h
  cases rsw with
  | true =>
    simp only [Option.some.injEq, Prod.mk.injEq] at h
    exact ⟨nw1, ne1, sw1, se, h.1.symm,
      Or.inr (Or.inr (Or.inl ⟨rfl, rfl, rfl, rfl, h.2.symm⟩))⟩
  | false =>
  cases hse : ins se with
  | none => rw [hse] at h; simp at h
  | some vse =>
  obtain ⟨se1, rse⟩ := vse
  rw [hse] at h
  cases rse with
  | true =>
    simp only [Option.some.injEq, Prod.mk.injEq] at h
    exact ⟨nw1, ne1, sw1, se1, h.1.symm,
      Or.inr (Or.inr (Or.inr (Or.inl ⟨rfl, rfl, rfl, rfl, h.2.symm⟩)))⟩
  | false =>
    simp only [Option.some.injEq, Prod.mk.injEq] at h
    exact ⟨nw1, ne1, sw1, se1, h.1.symm,
      Or.inr (Or.inr (Or.inr (Or.inr ⟨rfl, rfl, rfl, rfl, h.2.symm⟩)))⟩

lemma insert_boundary {fuel : ℕ} {t t' : QuadTree} {p : Particle} {r : Bool}
    (h : insert fuel t p = some (t', r)) :
    t'.boundary = t.boundary ∧ t'.capacity = t.capacity := by
  cases fuel with
  | zero => simp [insert] at h
  | succ fuel =>
    cases t with
    | leaf b c ps =>
      simp only [insert] at h
      split_ifs at h with hc hl
      · simp only [Option.some.injEq, Prod.mk.injEq] at h
        rw [← h.1]
        exact ⟨rfl, rfl⟩
      · obtain ⟨nw', ne', sw', se', ht', _⟩ := insertChildren_cases h
        rw [ht']
        exact ⟨rfl, rfl⟩
      · simp only [Option.some.injEq, Prod.mk.injEq] at h
        rw [← h.1]
        exact ⟨rfl, rfl⟩
    | node b c ps nw ne sw se =>
      simp only [insert] at h
      split_ifs at h with hc
      · obtain ⟨nw', ne', sw', se', ht', _⟩ := insertChildren_cases h
        rw [ht']
        exact ⟨rfl, rfl⟩
      · simp only [Option.some.injEq, Prod.mk.injEq] at h
        rw [← h.1]
        exact ⟨rfl, rfl⟩

lemma insert_false {fuel : ℕ} {t t' : QuadTree} {p : Particle}
    (hg : geomOK t) (h : insert fuel t p = some (t', false)) :
    t' = t ∧ ¬ t.boundary.contains p := by
  induction fuel generalizing t t' with
  | zero => simp [insert] at h
  | succ fuel ih =>
    cases t with
    | leaf b c ps =>
      simp only [insert] at h
      split_ifs at h with hc hl
      · simp at h
      · exfalso
        obtain ⟨nw', ne', sw', se', ht', hcs⟩ := insertChildren_cases h
        rcases hcs with ⟨_, _, _, _, hr⟩ | ⟨_, _, _, _, hr⟩ |
          ⟨_, _, _, _, hr⟩ | ⟨_, _, _, _, hr⟩ | ⟨hnw, hne, hsw, hse, _⟩
        · exact Bool.noConfusion hr
        · exact Bool.noConfusion hr
        · exact Bool.noConfusion hr
        · exact Bool.noConfusion hr
        · rcases contains_child b p hc with hx | hx | hx | hx
          · exact (ih (t := leaf (childNW b) c []) trivial hnw).2 hx
          · exact (ih (t := leaf (childNE b) c []) trivial hne).2 hx
          · exact (ih (t := leaf (childSW b) c []) trivial hsw).2 hx
          · exact (ih (t := leaf (childSE b) c []) trivial hse).2 hx
      · simp only [Option.some.injEq, Prod.mk.injEq] at h
        exact ⟨h.1.symm, hc⟩
    | node b c ps nw ne sw se =>
      obtain ⟨hbnw, hbne, hbsw, hbse, hgnw, hgne, hgsw, hgse⟩ := hg
      simp only [insert] at h
      split_ifs at h with hc
      · exfalso
        obtain ⟨nw', ne', sw', se', ht', hcs⟩ := insertChildren_cases h
        rcases hcs with ⟨_, _, _, _, hr⟩ | ⟨_, _, _, _, hr⟩ |
          ⟨_, _, _, _, hr⟩ | ⟨_, _, _, _, hr⟩ | ⟨hnw, hne, hsw, hse, _⟩
        · exact Bool.noConfusion hr
        · exact Bool.noConfusion hr
        · exact Bool.noConfusion hr
        · exact Bool.noConfusion hr
        · rcases contains_child b p hc with hx | hx | hx | hx
          · exact (ih hgnw hnw).2 (by rw [hbnw]; exact hx)
          · exact (ih hgne hne).2 (by rw [hbne]; exact hx)
          · exact (ih hgsw hsw).2 (by rw [hbsw]; exact hx)
          · exact (ih hgse hse).2 (by rw [hbse]; exact hx)
      · simp only [Option.some.injEq, Prod.mk.injEq] at h
        exact ⟨h.1.symm, hc⟩

lemma perm_splice1 {s A B C D A' : List Particle} {p : Particle}
    (hA : A'.Perm (p :: A)) :
    (s ++ (A' ++ (B ++ (C ++ D)))).Perm
      (p :: (s ++ (A ++ (B ++ (C ++ D))))) := by
  refine ((hA.append_right (B ++ (C ++ D))).append_left s).trans ?_
  simpa using @List.perm_middle _ p s (A ++ (B ++ (C ++ D)))

lemma perm_splice2 {s A B C D B' : List Particle} {p : Particle}
    (hB : B'.Perm (p :: B)) :
    (s ++ (A ++ (B' ++ (C ++ D)))).Perm
      (p :: (s ++ (A ++ (B ++ (C ++ D))))) := by
  refine (((hB.append_right (C ++ D)).append_left A).append_left s).trans ?_
  simpa using @List.perm_middle _ p (s ++ A) (B ++ (C ++ D))

lemma perm_splice3 {s A B C D C' : List Particle} {p : Particle}
    (hC : C'.Perm (p :: C)) :
    (s ++ (A ++ (B ++ (C' ++ D)))).Perm
      (p :: (s ++ (A ++ (B ++ (C ++ D))))) := by
  refine ((((hC.append_right D).append_left B).append_left A).append_left
    s).trans ?_
  simpa using @List.perm_middle _ p ((s ++ A) ++ B) (C ++ D)

lemma perm_splice4 {s A B C D D' : List Particle} {p : Particle}
    (hD : D'.Perm (p :: D)) :
    (s ++ (A ++ (B ++ (C ++ D')))).Perm
      (p :: (s ++ (A ++ (B ++ (C ++ D))))) := by
  refine (((((hD.append_left C).append_left B).append_left A)).append_left
    s).trans ?_
  simpa using @List.perm_middle _ p (((s ++ A) ++ B) ++ C) D

lemma insert_true_perm {fuel : ℕ} {t t' : QuadTree} {p : Particle}
    (hg : geomOK t) (h : insert fuel t p = some (t', true)) :
    (storedList t').Perm (p :: storedList t) := by
  induction fuel generalizing t t' with
  | zero => simp [insert] at h
  | succ fuel ih =>
    cases t with
    | leaf b c ps =>
      simp only [insert] at h
      split_ifs at h with hc hl
      · simp only [Option.some.injEq, Prod.mk.injEq] at h
        rw [← h.1]
        simpa [storedList] using List.perm_append_singleton p ps
      · obtain ⟨nw', ne', sw', se', ht', hcs⟩ := insertChildren_cases h
        subst ht'
        rcases hcs with ⟨hnw, hne, hsw, hse, _⟩ | ⟨hnw, hne, hsw, hse, _⟩ |
          ⟨hnw, hne, hsw, hse, _⟩ | ⟨hnw, hne, hsw, hse, _⟩ |
          ⟨_, _, _, _, hr⟩
        · subst hne; subst hsw; subst hse
          have hperm := ih (t := leaf (childNW b) c []) trivial hnw
          simpa [storedList] using perm_splice1 (s := ps)
            (B := ([] : List Particle)) (C := ([] : List Particle))
            (D := ([] : List Particle)) hperm
        · subst hsw; subst hse
          obtain ⟨hnw', _⟩ := insert_false (t := leaf (childNW b) c [])
            trivial hnw
          subst hnw'
          have hperm := ih (t := leaf (childNE b) c []) trivial hne
          simpa [storedList] using perm_splice2 (s := ps)
            (A := ([] : List Particle)) (C := ([] : List Particle))
            (D := ([] : List Particle)) hperm
        · subst hse
          obtain ⟨hnw', _⟩ := insert_false (t := leaf (childNW b) c [])
            trivial hnw
          obtain ⟨hne', _⟩ := insert_false (t := leaf (childNE b) c [])
            trivial hne
          subst hnw'; subst hne'
          have hperm := ih (t := leaf (childSW b) c []) trivial hsw
          simpa [storedList] using perm_splice3 (s := ps)
            (A := ([] : List Particle)) (B := ([] : List Particle))
            (D := ([] : List Particle)) hperm
        · obtain ⟨hnw', _⟩ := insert_false (t := leaf (childNW b) c [])
            trivial hnw
          obtain ⟨hne', _⟩ := insert_false (t := leaf (childNE b) c [])
            trivial hne
          obtain ⟨hsw', _⟩ := insert_false (t := leaf (childSW b) c [])
            trivial hsw
          subst hnw'; subst hne'; subst hsw'
          have hperm := ih (t := leaf (childSE b) c []) trivial hse
          simpa [storedList] using perm_splice4 (s := ps)
            (A := ([] : List Particle)) (B := ([] : List Particle))
            (C := ([] : List Particle)) hperm
        · exact Bool.noConfusion hr
      · simp at h
    | node b c ps nw ne sw se =>
      obtain ⟨hbnw, hbne, hbsw, hbse, hgnw, hgne, hgsw, hgse⟩ := hg
      simp only [insert] at h
      split_ifs at h with hc
      · obtain ⟨nw', ne', sw', se', ht', hcs⟩ := insertChildren_cases h
        subst ht'
        rcases hcs with ⟨hnw, hne, hsw, hse, _⟩ | ⟨hnw, hne, hsw, hse, _⟩ |
          ⟨hnw, hne, hsw, hse, _⟩ | ⟨hnw, hne, hsw, hse, _⟩ |
          ⟨_, _, _, _, hr⟩
        · subst hne; subst hsw; subst hse
          exact perm_splice1 (ih hgnw hnw)
        · subst hsw; subst hse
          obtain ⟨hnw', _⟩ := insert_false hgnw hnw
          subst hnw'
          exact perm_splice2 (ih hgne hne)
        · subst hse
          obtain ⟨hnw', _⟩ := insert_false hgnw hnw
          obtain ⟨hne', _⟩ := insert_false hgne hne
          subst hnw'; subst hne'
          exact perm_splice3 (ih hgsw hsw)
        · obtain ⟨hnw', _⟩ := insert_false hgnw hnw
          obtain ⟨hne', _⟩ := insert_false hgne hne
          obtain ⟨hsw', _⟩ := insert_false hgsw hsw
          subst hnw'; subst hne'; subst hsw'
          exact perm_splice4 (ih hgse hse)
        · exact Bool.noConfusion hr
      · simp at h

lemma insert_geomOK {fuel : ℕ} {t t' : QuadTree} {p : Particle} {r : Bool}
    (hg : geomOK t) (h : insert fuel t p = some (t', r)) : geomOK t' := by
  induction fuel generalizing t t' r with
  | zero => simp [insert] at h
  | succ fuel ih =>
    cases t with
    | leaf b c ps =>
      simp only [insert] at h
      split_ifs at h with hc hl
      · simp only [Option.some.injEq, Prod.mk.injEq] at h
        rw [← h.1]; trivial
      · obtain ⟨nw', ne', sw', se', ht', hcs⟩ := insertChildren_cases h
        subst ht'
        rcases hcs with ⟨hnw, hne, hsw, hse, _⟩ | ⟨hnw, hne, hsw, hse, _⟩ |
          ⟨hnw, hne, hsw, hse, _⟩ | ⟨hnw, hne, hsw, hse, _⟩ |
          ⟨hnw, hne, hsw, hse, _⟩
        · subst hne; subst hsw; subst hse
          exact ⟨(insert_boundary hnw).1, rfl, rfl, rfl,
            ih (by trivial) hnw, trivial, trivial, trivial⟩
        · subst hsw; subst hse
          obtain ⟨he, _⟩ := insert_false (by trivial) hnw
          subst he
          exact ⟨rfl, (insert_boundary hne).1, rfl, rfl,
            trivial, ih (by trivial) hne, trivial, trivial⟩
        · subst hse
          obtain ⟨he1, _⟩ := insert_false (by trivial) hnw
          obtain ⟨he2, _⟩ := insert_false (by trivial) hne
          subst he1; subst he2
          exact ⟨rfl, rfl, (insert_boundary hsw).1, rfl,
            trivial, trivial, ih (by trivial) hsw, trivial⟩
        · obtain ⟨he1, _⟩ := insert_false (by trivial) hnw
          obtain ⟨he2, _⟩ := insert_false (by trivial) hne
          obtain ⟨he3, _⟩ := insert_false (by trivial) hsw
          subst he1; subst he2; subst he3
          exact ⟨rfl, rfl, rfl, (insert_boundary hse).1,
            trivial, trivial, trivial, ih (by trivial) hse⟩
        · obtain ⟨he1, _⟩ := insert_false (by trivial) hnw
          obtain ⟨he2, _⟩ := insert_false (by trivial) hne
          obtain ⟨he3, _⟩ := insert_false (by trivial) hsw
          obtain ⟨he4, _⟩ := insert_false (by trivial) hse
          subst he1; subst he2; subst he3; subst he4
          exact ⟨rfl, rfl, rfl, rfl, trivial, trivial, trivial, trivial⟩
      · simp only [Option.some.injEq, Prod.mk.injEq] at h
        rw [← h.1]; trivial
    | node b c ps nw ne sw se =>
      obtain ⟨hbnw, hbne, hbsw, hbse, hgnw, hgne, hgsw, hgse⟩ := hg
      simp only [insert] at h
      split_ifs at h with hc
      · obtain ⟨nw', ne', sw', se', ht', hcs⟩ := insertChildren_cases h
        subst ht'
        rcases hcs with ⟨hnw, hne, hsw, hse, _⟩ | ⟨hnw, hne, hsw, hse, _⟩ |
          ⟨hnw, hne, hsw, hse, _⟩ | ⟨hnw, hne, hsw, hse, _⟩ |
          ⟨hnw, hne, hsw, hse, _⟩
        · subst hne; subst hsw; subst hse
          exact ⟨(insert_boundary hnw).1.trans hbnw, hbne, hbsw, hbse,
            ih hgnw hnw, hgne, hgsw, hgse⟩
        · subst hsw; subst hse
          obtain ⟨he, _⟩ := insert_false hgnw hnw
          subst he
          exact ⟨hbnw, (insert_boundary hne).1.trans hbne, hbsw, hbse,
            hgnw, ih hgne hne, hgsw, hgse⟩
        · subst hse
          obtain ⟨he1, _⟩ := insert_false hgnw hnw
          obtain ⟨he2, _⟩ := insert_false hgne hne
          subst he1; subst he2
          exact ⟨hbnw, hbne, (insert_boundary hsw).1.trans hbsw, hbse,
            hgnw, hgne, ih hgsw hsw, hgse⟩
        · obtain ⟨he1, _⟩ := insert_false hgnw hnw
          obtain ⟨he2, _⟩ := insert_false hgne hne
          obtain ⟨he3, _⟩ := insert_false hgsw hsw
          subst he1; subst he2; subst he3
          exact ⟨hbnw, hbne, hbsw, (insert_boundary hse).1.trans hbse,
            hgnw, hgne, hgsw, ih hgse hse⟩
        · obtain ⟨he1, _⟩ := insert_false hgnw hnw
          obtain ⟨he2, _⟩ := insert_false hgne hne
          obtain ⟨he3, _⟩ := insert_false hgsw hsw
          obtain ⟨he4, _⟩ := insert_false hgse hse
          subst he1; subst he2; subst he3; subst he4
          exact ⟨hbnw, hbne, hbsw, hbse, hgnw, hgne, hgsw, hgse⟩
      · simp only [Option.some.injEq, Prod.mk.injEq] at h
        rw [← h.1]
        exact ⟨hbnw, hbne, hbsw, hbse, hgnw, hgne, hgsw, hgse⟩

lemma insert_capGE1 {fuel : ℕ} {t t' : QuadTree} {p : Particle} {r : Bool}
    (hg : geomOK t) (hcap : capGE1 t) (h : insert fuel t p = some (t', r)) :
    capGE1 t' := by
  induction fuel generalizing t t' r with
  | zero => simp [insert] at h
  | succ fuel ih =>
    cases t with
    | leaf b c ps =>
      have hc1 : 1 ≤ c := hcap
      simp only [insert] at h
      split_ifs at h with hc hl
      · simp only [Option.some.injEq, Prod.mk.injEq] at h
        rw [← h.1]; exact hc1
      · obtain ⟨nw', ne', sw', se', ht', hcs⟩ := insertChildren_cases h
        subst ht'
        rcases hcs with ⟨hnw, hne, hsw, hse, _⟩ | ⟨hnw, hne, hsw, hse, _⟩ |
          ⟨hnw, hne, hsw, hse, _⟩ | ⟨hnw, hne, hsw, hse, _⟩ |
          ⟨hnw, hne, hsw, hse, _⟩
        · subst hne; subst hsw; subst hse
          exact ⟨hc1, ih (by trivial) (by exact hc1) hnw, hc1, hc1, hc1⟩
        · subst hsw; subst hse
          obtain ⟨he, _⟩ := insert_false (by trivial) hnw
          subst he
          exact ⟨hc1, hc1, ih (by trivial) (by exact hc1) hne, hc1, hc1⟩
        · subst hse
          obtain ⟨he1, _⟩ := insert_false (by trivial) hnw
          obtain ⟨he2, _⟩ := insert_false (by trivial) hne
          subst he1; subst he2
          exact ⟨hc1, hc1, hc1, ih (by trivial) (by exact hc1) hsw, hc1⟩
        · obtain ⟨he1, _⟩ := insert_false (by trivial) hnw
          obtain ⟨he2, _⟩ := insert_false (by trivial) hne
          obtain ⟨he3, _⟩ := insert_false (by trivial) hsw
          subst he1; subst he2; subst he3
          exact ⟨hc1, hc1, hc1, hc1, ih (by trivial) (by exact hc1) hse⟩
        · obtain ⟨he1, _⟩ := insert_false (by trivial) hnw
          obtain ⟨he2, _⟩ := insert_false (by trivial) hne
          obtain ⟨he3, _⟩ := insert_false (by trivial) hsw
          obtain ⟨he4, _⟩ := insert_false (by trivial) hse
          subst he1; subst he2; subst he3; subst he4
          exact ⟨hc1, hc1, hc1, hc1, hc1⟩
      · simp only [Option.some.injEq, Prod.mk.injEq] at h
        rw [← h.1]; exact hc1
    | node b c ps nw ne sw se =>
      obtain ⟨hbnw, hbne, hbsw, hbse, hgnw, hgne, hgsw, hgse⟩ := hg
      obtain ⟨hc1, hcnw, hcne, hcsw, hcse⟩ := hcap
      simp only [insert] at h
      split_ifs at h with hc
      · obtain ⟨nw', ne', sw', se', ht', hcs⟩ := insertChildren_cases h
        subst ht'
        rcases hcs with ⟨hnw, hne, hsw, hse, _⟩ | ⟨hnw, hne, hsw, hse, _⟩ |
          ⟨hnw, hne, hsw, hse, _⟩ | ⟨hnw, hne, hsw, hse, _⟩ |
          ⟨hnw, hne, hsw, hse, _⟩
        · subst hne; subst hsw; subst hse
          exact ⟨hc1, ih hgnw hcnw hnw, hcne, hcsw, hcse⟩
        · subst hsw; subst hse
          obtain ⟨he, _⟩ := insert_false hgnw hnw
          subst he
          exact ⟨hc1, hcnw, ih hgne hcne hne, hcsw, hcse⟩
        · subst hse
          obtain ⟨he1, _⟩ := insert_false hgnw hnw
          obtain ⟨he2, _⟩ := insert_false hgne hne
          subst he1; subst he2
          exact ⟨hc1, hcnw, hcne, ih hgsw hcsw hsw, hcse⟩
        · obtain ⟨he1, _⟩ := insert_false hgnw hnw
          obtain ⟨he2, _⟩ := insert_false hgne hne
          obtain ⟨he3, _⟩ := insert_false hgsw hsw
          subst he1; subst he2; subst he3
          exact ⟨hc1, hcnw, hcne, hcsw, ih hgse hcse hse⟩
        · obtain ⟨he1, _⟩ := insert_false hgnw hnw
          obtain ⟨he2, _⟩ := insert_false hgne hne
          obtain ⟨he3, _⟩ := insert_false hgsw hsw
          obtain ⟨he4, _⟩ := insert_false hgse hse
          subst he1; subst he2; subst he3; subst he4
          exact ⟨hc1, hcnw, hcne, hcsw, hcse⟩
      · simp only [Option.some.injEq, Prod.mk.injEq] at h
        rw [← h.1]
        exact ⟨hc1, hcnw, hcne, hcsw, hcse⟩

lemma insert_nodeInv {fuel : ℕ} {t t' : QuadTree} {p : Particle} {r : Bool}
    (hinv : nodeInv t) (h : insert fuel t p = some (t', r)) : nodeInv t' := by
  induction fuel generalizing t t' r with
  | zero => simp [insert] at h
  | succ fuel ih =>
    cases t with
    | leaf b c ps =>
      have hlen : ps.length ≤ c := hinv
      simp only [insert] at h
      split_ifs at h with hc hl
      · simp only [Option.some.injEq, Prod.mk.injEq] at h
        rw [← h.1]
        simpa [nodeInv] using hl
      · obtain ⟨nw', ne', sw', se', ht', hcs⟩ := insertChildren_cases h
        subst ht'
        have hfresh : ∀ bq : Boundary, nodeInv (leaf bq c []) := by
          intro bq; simp [nodeInv]
        rcases hcs with ⟨hnw, hne, hsw, hse, _⟩ | ⟨hnw, hne, hsw, hse, _⟩ |
          ⟨hnw, hne, hsw, hse, _⟩ | ⟨hnw, hne, hsw, hse, _⟩ |
          ⟨hnw, hne, hsw, hse, _⟩
        · subst hne; subst hsw; subst hse
          exact ⟨hlen, ih (hfresh _) hnw, hfresh _, hfresh _, hfresh _⟩
        · subst hsw; subst hse
          exact ⟨hlen, ih (hfresh _) hnw, ih (hfresh _) hne, hfresh _,
            hfresh _⟩
        · subst hse
          exact ⟨hlen, ih (hfresh _) hnw, ih (hfresh _) hne,
            ih (hfresh _) hsw, hfresh _⟩
        · exact ⟨hlen, ih (hfresh _) hnw, ih (hfresh _) hne,
            ih (hfresh _) hsw, ih (hfresh _) hse⟩
        · exact ⟨hlen, ih (hfresh _) hnw, ih (hfresh _) hne,
            ih (hfresh _) hsw, ih (hfresh _) hse⟩
      · simp only [Option.some.injEq, Prod.mk.injEq] at h
        rw [← h.1]; exact hlen
    | node b c ps nw ne sw se =>
      obtain ⟨hlen, hinw, hine, hisw, hise⟩ := hinv
      simp only [insert] at h
      split_ifs at h with hc
      · obtain ⟨nw', ne', sw', se', ht', hcs⟩ := insertChildren_cases h
        subst ht'
        rcases hcs with ⟨hnw, hne, hsw, hse, _⟩ | ⟨hnw, hne, hsw, hse, _⟩ |
          ⟨hnw, hne, hsw, hse, _⟩ | ⟨hnw, hne, hsw, hse, _⟩ |
          ⟨hnw, hne, hsw, hse, _⟩
        · subst hne; subst hsw; subst hse
          exact ⟨hlen, ih hinw hnw, hine, hisw, hise⟩
        · subst hsw; subst hse
          exact ⟨hlen, ih hinw hnw, ih hine hne, hisw, hise⟩
        · subst hse
          exact ⟨hlen, ih hinw hnw, ih hine hne, ih hisw hsw, hise⟩
        · exact ⟨hlen, ih hinw hnw, ih hine hne, ih hisw hsw, ih hise hse⟩
        · exact ⟨hlen, ih hinw hnw, ih hine hne, ih hisw hsw, ih hise hse⟩
      · simp only [Option.some.injEq, Prod.mk.injEq] at h
        rw [← h.1]
        exact ⟨hlen, hinw, hine, hisw, hise⟩

lemma mem_storedList_node {q : Particle} {b : Boundary} {c : ℕ}
    {ps : List Particle} {nw ne sw se : QuadTree} :
    q ∈ storedList (node b c ps nw ne sw se) ↔
      q ∈ ps ∨ q ∈ storedList nw ∨ q ∈ storedList ne ∨
      q ∈ storedList sw ∨ q ∈ storedList se := by
  simp [storedList, List.mem_append]

lemma insert_wfc {fuel : ℕ} {t t' : QuadTree} {p : Particle} {r : Bool}
    (hg : geomOK t) (hw : wfc t) (h : insert fuel t p = some (t', r)) :
    wfc t' := by
  induction fuel generalizing t t' r with
  | zero => simp [insert] at h
  | succ fuel ih =>
    cases r with
    | false =>
      obtain ⟨he, _⟩ := insert_false hg h
      rw [he]
      exact hw
    | true =>
    cases t with
    | leaf b c ps =>
      have hwl : ∀ q ∈ ps, b.contains q := hw
      simp only [insert] at h
      split_ifs at h with hc hl
      · simp only [Option.some.injEq, Prod.mk.injEq] at h
        rw [← h.1]
        intro q hq
        rcases List.mem_append.mp hq with hq | hq
        · exact hwl q hq
        · rw [List.mem_singleton.mp hq]; exact hc
      · obtain ⟨nw', ne', sw', se', ht', hcs⟩ := insertChildren_cases h
        subst ht'
        have hfreshw : ∀ bq : Boundary, wfc (leaf bq c []) := by
          intro bq q hq; simp at hq
        have hmember : ∀ X : QuadTree,
            insert fuel (leaf (childNW b) c []) p = some (X, true) ∨
            insert fuel (leaf (childNE b) c []) p = some (X, true) ∨
            insert fuel (leaf (childSW b) c []) p = some (X, true) ∨
            insert fuel (leaf (childSE b) c []) p = some (X, true) →
            ∀ q ∈ storedList X, q = p := by
          intro X hX q hq
          have hperm : (storedList X).Perm (p :: ([] : List Particle)) := by
            rcases hX with hX | hX | hX | hX <;>
              simpa [storedList] using insert_true_perm (by trivial) hX
          have := hperm.mem_iff.mp hq
          simpa using this
        rcases hcs with ⟨hnw, hne, hsw, hse, _⟩ | ⟨hnw, hne, hsw, hse, _⟩ |
          ⟨hnw, hne, hsw, hse, _⟩ | ⟨hnw, hne, hsw, hse, _⟩ |
          ⟨_, _, _, _, hr⟩
        · subst hne; subst hsw; subst hse
          refine ⟨?_, ih (by trivial) (hfreshw _) hnw, hfreshw _,
            hfreshw _, hfreshw _⟩
          intro q hq
          rcases mem_storedList_node.mp hq with hq | hq | hq | hq | hq
          · exact hwl q hq
          · rw [hmember nw' (Or.inl hnw) q hq]; exact hc
          all_goals simp [storedList] at hq
        · subst hsw; subst hse
          obtain ⟨he, _⟩ := insert_false (by trivial) hnw
          subst he
          refine ⟨?_, hfreshw _, ih (by trivial) (hfreshw _) hne,
            hfreshw _, hfreshw _⟩
          intro q hq
          rcases mem_storedList_node.mp hq with hq | hq | hq | hq | hq
          · exact hwl q hq
          · simp [storedList] at hq
          · rw [hmember ne' (Or.inr (Or.inl hne)) q hq]; exact hc
          all_goals simp [storedList] at hq
        · subst hse
          obtain ⟨he1, _⟩ := insert_false (by trivial) hnw
          obtain ⟨he2, _⟩ := insert_false (by trivial) hne
          subst he1; subst he2
          refine ⟨?_, hfreshw _, hfreshw _,
            ih (by trivial) (hfreshw _) hsw, hfreshw _⟩
          intro q hq
          rcases mem_storedList_node.mp hq with hq | hq | hq | hq | hq
          · exact hwl q hq
          · simp [storedList] at hq
          · simp [storedList] at hq
          · rw [hmember sw' (Or.inr (Or.inr (Or.inl hsw))) q hq]; exact hc
          · simp [storedList] at hq
        · obtain ⟨he1, _⟩ := insert_false (by trivial) hnw
          obtain ⟨he2, _⟩ := insert_false (by trivial) hne
          obtain ⟨he3, _⟩ := insert_false (by trivial) hsw
          subst he1; subst he2; subst he3
          refine ⟨?_, hfreshw _, hfreshw _, hfreshw _,
            ih (by trivial) (hfreshw _) hse⟩
          intro q hq
          rcases mem_storedList_node.mp hq with hq | hq | hq | hq | hq
          · exact hwl q hq
          · simp [storedList] at hq
          · simp [storedList] at hq
          · simp [storedList] at hq
          · rw [hmember se' (Or.inr (Or.inr (Or.inr hse))) q hq]; exact hc
        · exact Bool.noConfusion hr
      · simp at h
    | node b c ps nw ne sw se =>
      obtain ⟨hbnw, hbne, hbsw, hbse, hgnw, hgne, hgsw, hgse⟩ := hg
      obtain ⟨hall, hwnw, hwne, hwsw, hwse⟩ := hw
      simp only [insert] at h
      split_ifs at h with hc
      · obtain ⟨nw', ne', sw', se', ht', hcs⟩ := insertChildren_cases h
        subst ht'
        rcases hcs with ⟨hnw, hne, hsw, hse, _⟩ | ⟨hnw, hne, hsw, hse, _⟩ |
          ⟨hnw, hne, hsw, hse, _⟩ | ⟨hnw, hne, hsw, hse, _⟩ |
          ⟨_, _, _, _, hr⟩
        · subst hne; subst hsw; subst hse
          refine ⟨?_, ih hgnw hwnw hnw, hwne, hwsw, hwse⟩
          intro q hq
          rcases mem_storedList_node.mp hq with hq | hq | hq | hq | hq
          · exact hall q (mem_storedList_node.mpr (Or.inl hq))
          · rcases List.mem_cons.mp ((insert_true_perm hgnw hnw).mem_iff.mp hq) with hq | hq
            · rw [hq]; exact hc
            · exact hall q (mem_storedList_node.mpr (Or.inr (Or.inl hq)))
          · exact hall q
              (mem_storedList_node.mpr (Or.inr (Or.inr (Or.inl hq))))
          · exact hall q
              (mem_storedList_node.mpr
                (Or.inr (Or.inr (Or.inr (Or.inl hq)))))
          · exact hall q
              (mem_storedList_node.mpr
                (Or.inr (Or.inr (Or.inr (Or.inr hq)))))
        · subst hsw; subst hse
          obtain ⟨he, _⟩ := insert_false hgnw hnw
          subst he
          refine ⟨?_, hwnw, ih hgne hwne hne, hwsw, hwse⟩
          intro q hq
          rcases mem_storedList_node.mp hq with hq | hq | hq | hq | hq
          · exact hall q (mem_storedList_node.mpr (Or.inl hq))
          · exact hall q (mem_storedList_node.mpr (Or.inr (Or.inl hq)))
          · rcases List.mem_cons.mp ((insert_true_perm hgne hne).mem_iff.mp hq) with hq | hq
            · rw [hq]; exact hc
            · exact hall q
                (mem_storedList_node.mpr (Or.inr (Or.inr (Or.inl hq))))
          · exact hall q
              (mem_storedList_node.mpr
                (Or.inr (Or.inr (Or.inr (Or.inl hq)))))
          · exact hall q
              (mem_storedList_node.mpr
                (Or.inr (Or.inr (Or.inr (Or.inr hq)))))
        · subst hse
          obtain ⟨he1, _⟩ := insert_false hgnw hnw
          obtain ⟨he2, _⟩ := insert_false hgne hne
          subst he1; subst he2
          refine ⟨?_, hwnw, hwne, ih hgsw hwsw hsw, hwse⟩
          intro q hq
          rcases mem_storedList_node.mp hq with hq | hq | hq | hq | hq
          · exact hall q (mem_storedList_node.mpr (Or.inl hq))
          · exact hall q (mem_storedList_node.mpr (Or.inr (Or.inl hq)))
          · exact hall q
              (mem_storedList_node.mpr (Or.inr (Or.inr (Or.inl hq))))
          · rcases List.mem_cons.mp ((insert_true_perm hgsw hsw).mem_iff.mp hq) with hq | hq
            · rw [hq]; exact hc
            · exact hall q
                (mem_storedList_node.mpr
                  (Or.inr (Or.inr (Or.inr (Or.inl hq)))))
          · exact hall q
              (mem_storedList_node.mpr
                (Or.inr (Or.inr (Or.inr (Or.inr hq)))))
        · obtain ⟨he1, _⟩ := insert_false hgnw hnw
          obtain ⟨he2, _⟩ := insert_false hgne hne
          obtain ⟨he3, _⟩ := insert_false hgsw hsw
          subst he1; subst he2; subst he3
          refine ⟨?_, hwnw, hwne, hwsw, ih hgse hwse hse⟩
          intro q hq
          rcases mem_storedList_node.mp hq with hq | hq | hq | hq | hq
          · exact hall q (mem_storedList_node.mpr (Or.inl hq))
          · exact hall q (mem_storedList_node.mpr (Or.inr (Or.inl hq)))
          · exact hall q
              (mem_storedList_node.mpr (Or.inr (Or.inr (Or.inl hq))))
          · exact hall q
              (mem_storedList_node.mpr
                (Or.inr (Or.inr (Or.inr (Or.inl hq)))))
          · rcases List.mem_cons.mp ((insert_true_perm hgse hse).mem_iff.mp hq) with hq | hq
            · rw [hq]; exact hc
            · exact hall q
                (mem_storedList_node.mpr
                  (Or.inr (Or.inr (Or.inr (Or.inr hq)))))
        · exact Bool.noConfusion hr
      · simp at h

lemma insert_succ_leaf {fuel : ℕ} {b : Boundary} {c : ℕ}
    {ps : List Particle} {p : Particle} :
    insert (fuel + 1) (leaf b c ps) p =
      if (leaf b c ps : QuadTree).boundary.contains p then
        (if ps.length < c then some (leaf b c (ps ++ [p]), true)
         else insertChildren (fun u => insert fuel u p) b c ps
           (leaf (childNW b) c []) (leaf (childNE b) c [])
           (leaf (childSW b) c []) (leaf (childSE b) c []))
      else some (leaf b c ps, false) := rfl

lemma insert_succ_node {fuel : ℕ} {b : Boundary} {c : ℕ}
    {ps : List Particle} {nw ne sw se : QuadTree} {p : Particle} :
    insert (fuel + 1) (node b c ps nw ne sw se) p =
      if (node b c ps nw ne sw se : QuadTree).boundary.contains p then
        insertChildren (fun u => insert fuel u p) b c ps nw ne sw se
      else some (node b c ps nw ne sw se, false) := rfl

lemma insert_not_contains {fuel : ℕ} {t : QuadTree} {p : Particle}
    (hc : ¬ t.boundary.contains p) :
    insert (fuel + 1) t p = some (t, false) := by
  cases t with
  | leaf b c ps => rw [insert_succ_leaf, if_neg hc]
  | node b c ps nw ne sw se => rw [insert_succ_node, if_neg hc]

lemma insert_success {t : QuadTree} (hg : geomOK t) (hcap : capGE1 t)
    {p : Particle} (hc : t.boundary.contains p) :
    ∃ fuel t', insert fuel t p = some (t', true) := by
  induction t with
  | leaf b c ps =>
    have hc1 : 0 < c := hcap
    by_cases hl : ps.length < c
    · exact ⟨1, leaf b c (ps ++ [p]), by rw [insert_succ_leaf, if_pos hc,
        if_pos hl]⟩
    · by_cases c1 : (childNW b).contains p
      · refine ⟨2, node b c ps (leaf (childNW b) c [p])
          (leaf (childNE b) c []) (leaf (childSW b) c [])
          (leaf (childSE b) c []), ?_⟩
        rw [insert_succ_leaf, if_pos hc, if_neg hl]
        simp only [insertChildren, insert_succ_leaf, if_pos c1,
          List.length_nil, if_pos hc1, List.nil_append, boundary]
      · by_cases c2 : (childNE b).contains p
        · refine ⟨2, node b c ps (leaf (childNW b) c [])
            (leaf (childNE b) c [p]) (leaf (childSW b) c [])
            (leaf (childSE b) c []), ?_⟩
          rw [insert_succ_leaf, if_pos hc, if_neg hl]
          simp only [insertChildren, insert_succ_leaf, if_pos c2, if_neg c1,
            List.length_nil, if_pos hc1, List.nil_append, boundary]
        · by_cases c3 : (childSW b).contains p
          · refine ⟨2, node b c ps (leaf (childNW b) c [])
              (leaf (childNE b) c []) (leaf (childSW b) c [p])
              (leaf (childSE b) c []), ?_⟩
            rw [insert_succ_leaf, if_pos hc, if_neg hl]
            simp only [insertChildren, insert_succ_leaf, if_pos c3,
              if_neg c1, if_neg c2, List.length_nil, if_pos hc1,
              List.nil_append, boundary]
          · have c4 : (childSE b).contains p := by
              rcases contains_child b p hc with hx | hx | hx | hx
              · exact absurd hx c1
              · exact absurd hx c2
              · exact absurd hx c3
              · exact hx
            refine ⟨2, node b c ps (leaf (childNW b) c [])
              (leaf (childNE b) c []) (leaf (childSW b) c [])
              (leaf (childSE b) c [p]), ?_⟩
            rw [insert_succ_leaf, if_pos hc, if_neg hl]
            simp only [insertChildren, insert_succ_leaf, if_pos c4,
              if_neg c1, if_neg c2, if_neg c3, List.length_nil,
              if_pos hc1, List.nil_append, boundary]
  | node b c ps nw ne sw se ihnw ihne ihsw ihse =>
    obtain ⟨hbnw, hbne, hbsw, hbse, hgnw, hgne, hgsw, hgse⟩ := hg
    obtain ⟨hc1, hcnw, hcne, hcsw, hcse⟩ := hcap
    by_cases c1 : (childNW b).contains p
    · obtain ⟨fuel, nw', hins⟩ := ihnw hgnw hcnw (by rw [hbnw]; exact c1)
      refine ⟨fuel + 1, node b c ps nw' ne sw se, ?_⟩
      rw [insert_succ_node, if_pos hc]
      simp only [insertChildren, hins]
    · by_cases c2 : (childNE b).contains p
      · obtain ⟨fuel, ne', hins⟩ := ihne hgne hcne (by rw [hbne]; exact c2)
        cases fuel with
        | zero => simp [insert] at hins
        | succ f =>
          have hnwf : insert (f + 1) nw p = some (nw, false) :=
            insert_not_contains (by rw [hbnw]; exact c1)
          refine ⟨f + 2, node b c ps nw ne' sw se, ?_⟩
          rw [insert_succ_node, if_pos hc]
          simp only [insertChildren, hnwf, hins]
      · by_cases c3 : (childSW b).contains p
        · obtain ⟨fuel, sw', hins⟩ := ihsw hgsw hcsw (by rw [hbsw]; exact c3)
          cases fuel with
          | zero => simp [insert] at hins
          | succ f =>
            have hnwf : insert (f + 1) nw p = some (nw, false) :=
              insert_not_contains (by rw [hbnw]; exact c1)
            have hnef : insert (f + 1) ne p = some (ne, false) :=
              insert_not_contains (by rw [hbne]; exact c2)
            refine ⟨f + 2, node b c ps nw ne sw' se, ?_⟩
            rw [insert_succ_node, if_pos hc]
            simp only [insertChildren, hnwf, hnef, hins]
        · have c4 : (childSE b).contains p := by
            rcases contains_child b p hc with hx | hx | hx | hx
            · exact absurd hx c1
            · exact absurd hx c2
            · exact absurd hx c3
            · exact hx
          obtain ⟨fuel, se', hins⟩ := ihse hgse hcse (by rw [hbse]; exact c4)
          cases fuel with
          | zero => simp [insert] at hins
          | succ f =>
            have hnwf : insert (f + 1) nw p = some (nw, false) :=
              insert_not_contains (by rw [hbnw]; exact c1)
            have hnef : insert (f + 1) ne p = some (ne, false) :=
              insert_not_contains (by rw [hbne]; exact c2)
            have hswf : insert (f + 1) sw p = some (sw, false) :=
              insert_not_contains (by rw [hbsw]; exact c3)
            refine ⟨f + 2, node b c ps nw ne sw se', ?_⟩
            rw [insert_succ_node, if_pos hc]
            simp only [insertChildren, hnwf, hnef, hswf, hins]

lemma insert_capZero_none {fuel : ℕ} {t : QuadTree} {p : Particle}
    (hz : capZero t) (hg : geomOK t) (hc : t.boundary.contains p) :
    insert fuel t p = none := by
  induction fuel generalizing t with
  | zero => simp [insert]
  | succ fuel ih =>
    cases t with
    | leaf b c ps =>
      have hc0 : c = 0 := hz
      subst hc0
      rw [insert_succ_leaf, if_pos hc, if_neg (by simp)]
      by_cases c1 : (childNW b).contains p
      · have h1 : insert fuel (leaf (childNW b) 0 []) p = none :=
          ih (by trivial) (by trivial) c1
        simp only [insertChildren, h1]
      · by_cases c2 : (childNE b).contains p
        · cases fuel with
          | zero => simp [insertChildren, insert]
          | succ f =>
            have hnwf : insert (f + 1) (leaf (childNW b) 0 []) p =
                some (leaf (childNW b) 0 [], false) :=
              insert_not_contains c1
            have h2 : insert (f + 1) (leaf (childNE b) 0 []) p = none :=
              ih (by trivial) (by trivial) c2
            simp only [insertChildren, hnwf, h2]
        · by_cases c3 : (childSW b).contains p
          · cases fuel with
            | zero => simp [insertChildren, insert]
            | succ f =>
              have hnwf : insert (f + 1) (leaf (childNW b) 0 []) p =
                  some (leaf (childNW b) 0 [], false) :=
                insert_not_contains c1
              have hnef : insert (f + 1) (leaf (childNE b) 0 []) p =
                  some (leaf (childNE b) 0 [], false) :=
                insert_not_contains c2
              have h3 : insert (f + 1) (leaf (childSW b) 0 []) p = none :=
                ih (by trivial) (by trivial) c3
              simp only [insertChildren, hnwf, hnef, h3]
          · have c4 : (childSE b).contains p := by
              rcases contains_child b p hc with hx | hx | hx | hx
              · exact absurd hx c1
              · exact absurd hx c2
              · exact absurd hx c3
              · exact hx
            cases fuel with
            | zero => simp [insertChildren, insert]
            | succ f =>
              have hnwf : insert (f + 1) (leaf (childNW b) 0 []) p =
                  some (leaf (childNW b) 0 [], false) :=
                insert_not_contains c1
              have hnef : insert (f + 1) (leaf (childNE b) 0 []) p =
                  some (leaf (childNE b) 0 [], false) :=
                insert_not_contains c2
              have hswf : insert (f + 1) (leaf (childSW b) 0 []) p =
                  some (leaf (childSW b) 0 [], false) :=
                insert_not_contains c3
              have h4 : insert (f + 1) (leaf (childSE b) 0 []) p = none :=
                ih (by trivial) (by trivial) c4
              simp only [insertChildren, hnwf, hnef, hswf, h4]
    | node b c ps nw ne sw se =>
      obtain ⟨hz0, hznw, hzne, hzsw, hzse⟩ := hz
      obtain ⟨hbnw, hbne, hbsw, hbse, hgnw, hgne, hgsw, hgse⟩ := hg
      rw [insert_succ_node, if_pos hc]
      by_cases c1 : (childNW b).contains p
      · have h1 : insert fuel nw p = none :=
          ih hznw hgnw (by rw [hbnw]; exact c1)
        simp only [insertChildren, h1]
      · by_cases c2 : (childNE b).contains p
        · cases fuel with
          | zero => simp [insertChildren, insert]
          | succ f =>
            have hnwf : insert (f + 1) nw p = some (nw, false) :=
              insert_not_contains (by rw [hbnw]; exact c1)
            have h2 : insert (f + 1) ne p = none :=
              ih hzne hgne (by rw [hbne]; exact c2)
            simp only [insertChildren, hnwf, h2]
        · by_cases c3 : (childSW b).contains p
          · cases fuel with
            | zero => simp [insertChildren, insert]
            | succ f =>
              have hnwf : insert (f + 1) nw p = some (nw, false) :=
                insert_not_contains (by rw [hbnw]; exact c1)
              have hnef : insert (f + 1) ne p = some (ne, false) :=
                insert_not_contains (by rw [hbne]; exact c2)
              have h3 : insert (f + 1) sw p = none :=
                ih hzsw hgsw (by rw [hbsw]; exact c3)
              simp only [insertChildren, hnwf, hnef, h3]
          · have c4 : (childSE b).contains p := by
              rcases contains_child b p hc with hx | hx | hx | hx
              · exact absurd hx c1
              · exact absurd hx c2
              · exact absurd hx c3
              · exact hx
            cases fuel with
            | zero => simp [insertChildren, insert]
            | succ f =>
              have hnwf : insert (f + 1) nw p = some (nw, false) :=
                insert_not_contains (by rw [hbnw]; exact c1)
              have hnef : insert (f + 1) ne p = some (ne, false) :=
                insert_not_contains (by rw [hbne]; exact c2)
              have hswf : insert (f + 1) sw p = some (sw, false) :=
                insert_not_contains (by rw [hbsw]; exact c3)
              have h4 : insert (f + 1) se p = none :=
                ih hzse hgse (by rw [hbse]; exact c4)
              simp only [insertChildren, hnwf, hnef, hswf, h4]

lemma query_eq {t : QuadTree} {r : Boundary} :
    ∀ found : List Particle, wfc t →
      query t r found =
        found ++ (storedList t).filter (fun q => r.contains q) := by
  induction t with
  | leaf b c ps =>
    intro found hw
    by_cases hi : b.intersects r
    · simp [query, hi, storedList]
    · have hnone : ps.filter (fun q => r.contains q) = [] := by
        rw [List.filter_eq_nil_iff]
        intro q hq
        simp only [decide_eq_true_eq]
        intro hrq
        exact hi (contains_intersects b r q (hw q hq) hrq)
      simp [query, hi, storedList, hnone]
  | node b c ps nw ne sw se ihnw ihne ihsw ihse =>
    intro found hw
    obtain ⟨hall, hwnw, hwne, hwsw, hwse⟩ := hw
    by_cases hi : b.intersects r
    · simp only [query, if_pos hi]
      rw [ihnw _ hwnw, ihne _ hwne, ihsw _ hwsw, ihse _ hwse]
      simp [storedList, List.filter_append, List.append_assoc]
    · have hnone : (storedList (node b c ps nw ne sw se)).filter
          (fun q => r.contains q) = [] := by
        rw [List.filter_eq_nil_iff]
        intro q hq
        simp only [decide_eq_true_eq]
        intro hrq
        exact hi (contains_intersects b r q (hall q hq) hrq)
      simp [query, hi, hnone]

lemma insert_mono {fuel fuel' : ℕ} (hle : fuel ≤ fuel') :
    ∀ {t t' : QuadTree} {p : Particle} {r : Bool},
      insert fuel t p = some (t', r) → insert fuel' t p = some (t', r) := by
  induction fuel generalizing fuel' with
  | zero => intro t t' p r h; simp [insert] at h
  | succ f ih =>
    intro t t' p r h
    obtain ⟨f', rfl⟩ : ∃ f', fuel' = f' + 1 := ⟨fuel' - 1, by omega⟩
    have hff : f ≤ f' := by omega
    cases t with
    | leaf b c ps =>
      rw [insert_succ_leaf] at h ⊢
      split_ifs at h ⊢ with hc hl
      · exact h
      · obtain ⟨nw', ne', sw', se', ht', hcs⟩ := insertChildren_cases h
        subst ht'
        rcases hcs with ⟨hnw, hne, hsw, hse, hr⟩ | ⟨hnw, hne, hsw, hse, hr⟩ |
          ⟨hnw, hne, hsw, hse, hr⟩ | ⟨hnw, hne, hsw, hse, hr⟩ |
          ⟨hnw, hne, hsw, hse, hr⟩
        · subst hne; subst hsw; subst hse; subst hr
          simp only [insertChildren, ih hff hnw]
        · subst hsw; subst hse; subst hr
          simp only [insertChildren, ih hff hnw, ih hff hne]
        · subst hse; subst hr
          simp only [insertChildren, ih hff hnw, ih hff hne, ih hff hsw]
        · subst hr
          simp only [insertChildren, ih hff hnw, ih hff hne, ih hff hsw,
            ih hff hse]
        · subst hr
          simp only [insertChildren, ih hff hnw, ih hff hne, ih hff hsw,
            ih hff hse]
      · exact h
    | node b c ps nw ne sw se =>
      rw [insert_succ_node] at h ⊢
      split_ifs at h ⊢ with hc
      · obtain ⟨nw', ne', sw', se', ht', hcs⟩ := insertChildren_cases h
        subst ht'
        rcases hcs with ⟨hnw, hne, hsw, hse, hr⟩ | ⟨hnw, hne, hsw, hse, hr⟩ |
          ⟨hnw, hne, hsw, hse, hr⟩ | ⟨hnw, hne, hsw, hse, hr⟩ |
          ⟨hnw, hne, hsw, hse, hr⟩
        · subst hne; subst hsw; subst hse; subst hr
          simp only [insertChildren, ih hff hnw]
        · subst hsw; subst hse; subst hr
          simp only [insertChildren, ih hff hnw, ih hff hne]
        · subst hse; subst hr
          simp only [insertChildren, ih hff hnw, ih hff hne, ih hff hsw]
        · subst hr
          simp only [insertChildren, ih hff hnw, ih hff hne, ih hff hsw,
            ih hff hse]
        · subst hr
          simp only [insertChildren, ih hff hnw, ih hff hne, ih hff hsw,
            ih hff hse]
      · exact h

lemma insertAll_mono {fuel fuel' : ℕ} (hle : fuel ≤ fuel') :
    ∀ {l : List Particle} {t t' : QuadTree},
      insertAll fuel t l = some t' → insertAll fuel' t l = some t' := by
  intro l
  induction l with
  | nil => intro t t' h; simpa [insertAll] using h
  | cons p l ihl =>
    intro t t' h
    simp only [insertAll] at h ⊢
    cases hins : insert fuel t p with
    | none => rw [hins] at h; simp at h
    | some v =>
      obtain ⟨t1, r⟩ := v
      rw [hins] at h
      simp only at h
      rw [insert_mono hle hins]
      exact ihl h

lemma insertAll_spec {l : List Particle} :
    ∀ {t t' : QuadTree} {fuel : ℕ}, geomOK t → wfc t →
      (∀ q ∈ l, t.boundary.contains q) →
      insertAll fuel t l = some t' →
      (storedList t').Perm (l ++ storedList t) ∧ geomOK t' ∧ wfc t' ∧
        t'.boundary = t.boundary := by
  induction l with
  | nil =>
    intro t t' fuel hg hw _ h
    simp only [insertAll, Option.some.injEq] at h
    subst h
    exact ⟨by simp, hg, hw, rfl⟩
  | cons p l ihl =>
    intro t t' fuel hg hw hcont h
    simp only [insertAll] at h
    cases hins : insert fuel t p with
    | none => rw [hins] at h; simp at h
    | some v =>
      obtain ⟨t1, r⟩ := v
      rw [hins] at h
      simp only at h
      cases r with
      | false =>
        obtain ⟨_, hnc⟩ := insert_false hg hins
        exact absurd (hcont p (List.mem_cons_self p l)) hnc
      | true =>
        have hperm1 := insert_true_perm hg hins
        have hg1 := insert_geomOK hg hins
        have hw1 := insert_wfc hg hw hins
        have hb1 := (insert_boundary hins).1
        obtain ⟨hperm2, hg2, hw2, hb2⟩ := ihl hg1 hw1
          (fun q hq => by
            rw [hb1]; exact hcont q (List.mem_cons_of_mem p hq)) h
        refine ⟨?_, hg2, hw2, hb2.trans hb1⟩
        exact hperm2.trans ((hperm1.append_left l).trans List.perm_middle)

lemma insertAll_success {l : List Particle} :
    ∀ {t : QuadTree}, geomOK t → capGE1 t →
      (∀ q ∈ l, t.boundary.contains q) →
      ∃ fuel t', insertAll fuel t l = some t' := by
  induction l with
  | nil => intro t _ _ _; exact ⟨0, t, rfl⟩
  | cons p l ihl =>
    intro t hg hcap hcont
    obtain ⟨f1, t1, h1⟩ :=
      insert_success hg hcap (hcont p (List.mem_cons_self p l))
    have hg1 := insert_geomOK hg h1
    have hcap1 := insert_capGE1 hg hcap h1
    have hb1 := (insert_boundary h1).1
    obtain ⟨f2, t2, h2⟩ := ihl hg1 hcap1
      (fun q hq => by rw [hb1]; exact hcont q (List.mem_cons_of_mem p hq))
    refine ⟨max f1 f2, t2, ?_⟩
    simp only [insertAll, insert_mono (le_max_left f1 f2) h1]
    exact insertAll_mono (le_max_right f1 f2) h2

lemma nodesStoring_le_count {p : Particle} : ∀ t : QuadTree,
    nodesStoring p t ≤ (storedList t).count p := by
  intro t
  induction t with
  | leaf b c ps =>
    simp only [nodesStoring, storedList]
    split_ifs with hm
    · exact List.one_le_count_iff.mpr hm
    · exact Nat.zero_le _
  | node b c ps nw ne sw se ihnw ihne ihsw ihse =>
    simp only [nodesStoring, storedList, List.count_append]
    split_ifs with hm
    · have h1 := List.one_le_count_iff.mpr hm
      omega
    · omega

lemma mem_nodesStoring {p : Particle} : ∀ t : QuadTree,
    p ∈ storedList t → 1 ≤ nodesStoring p t := by
  intro t
  induction t with
  | leaf b c ps =>
    intro hm
    simp only [storedList] at hm
    simp [nodesStoring, hm]
  | node b c ps nw ne sw se ihnw ihne ihsw ihse =>
    intro hm
    simp only [nodesStoring]
    rcases mem_storedList_node.mp hm with hm | hm | hm | hm | hm
    · simp only [if_pos hm]; omega
    · have := ihnw hm; omega
    · have := ihne hm; omega
    · have := ihsw hm; omega
    · have := ihse hm; omega

lemma nodeInv_subdivide {t : QuadTree} (h : nodeInv t) :
    nodeInv t.subdivide := by
  cases t with
  | leaf b c ps =>
    exact ⟨h, by simp [nodeInv], by simp [nodeInv], by simp [nodeInv],
      by simp [nodeInv]⟩
  | node b c ps nw ne sw se =>
    exact ⟨h.1, by simp [nodeInv], by simp [nodeInv], by simp [nodeInv],
      by simp [nodeInv]⟩

lemma nodeInv_clear (t : QuadTree) : nodeInv t.clear := by
  simp [clear, nodeInv]

lemma geomOK_subdivide (t : QuadTree) : geomOK t.subdivide := by
  cases t with
  | leaf b c ps =>
    exact ⟨rfl, rfl, rfl, rfl, trivial, trivial, trivial, trivial⟩
  | node b c ps nw ne sw se =>
    exact ⟨rfl, rfl, rfl, rfl, trivial, trivial, trivial, trivial⟩

lemma geomOK_clear (t : QuadTree) : geomOK t.clear := by
  simp [clear, geomOK]

lemma reachable_geomOK {t : QuadTree} (h : Reachable t) : geomOK t := by
  induction h with
  | fresh b c => trivial
  | ins hr hins ih => exact insert_geomOK ih hins
  | subdiv hr ih => exact geomOK_subdivide _
  | clr hr ih => exact geomOK_clear _

end QuadTree

/-- Claim C4 (amended): every QuadTree node reachable by any sequence of
insert, subdivide and clear operations satisfies: either it has no children,
or it is subdivided with exactly four children; in both cases it stores at
most capacity particles locally (a node that subdivides keeps the particles
it already buffered; they are not redistributed to the children). -/
theorem reachable_nodeInv {t : QuadTree} (h : QuadTree.Reachable t) :
    QuadTree.nodeInv t := by
  induction h with
  | fresh b c => simp [QuadTree.nodeInv]
  | ins hr hins ih => exact QuadTree.insert_nodeInv ih hins
  | subdiv hr ih => exact QuadTree.nodeInv_subdivide ih
  | clr hr ih => exact QuadTree.nodeInv_clear _

/-- Witness for the amended C4 at a concrete reachable tree. -/
theorem reachable_nodeInv_witness : QuadTree.nodeInv (QuadTree.leaf bW 4 []) :=
  reachable_nodeInv (QuadTree.Reachable.fresh bW 4)

/-- Counterexample to C4 as stated: inserting two particles into a fresh
capacity-1 tree leaves the root subdivided with one particle still stored
locally, not zero. -/
theorem subdivided_root_nonempty_cex :
    (QuadTree.insertAll 3 (QuadTree.leaf bW 1 []) [qW1, qW2]).map
      (fun t => (t.divided, t.particles.length)) = some (true, 1) := by
  norm_num [QuadTree.insertAll, QuadTree.insert, QuadTree.insertChildren,
    QuadTree.divided, QuadTree.particles, QuadTree.boundary,
    Boundary.contains, childNW, childNE, childSW, childSE, bW, qW1, qW2]

/-- Claim C9 (amended): for every reachable QuadTree all of whose nodes have
capacity at least one, and every particle whose position lies within the
root boundary, insert returns within some finite recursion depth and returns
true, regardless of previous insertions. -/
theorem insert_in_bounds_succeeds {t : QuadTree} (hr : QuadTree.Reachable t)
    (hcap : QuadTree.capGE1 t) {p : Particle}
    (hc : t.boundary.contains p) :
    ∃ fuel t', QuadTree.insert fuel t p = some (t', true) :=
  QuadTree.insert_success (QuadTree.reachable_geomOK hr) hcap hc

/-- Witness for the amended C9 at a concrete tree and particle. -/
theorem insert_in_bounds_succeeds_witness :
    (QuadTree.capGE1 (QuadTree.leaf bW 4 []) ∧
      (QuadTree.leaf bW 4 [] : QuadTree).boundary.contains qW1) ∧
    ∃ fuel t',
      QuadTree.insert fuel (QuadTree.leaf bW 4 []) qW1 = some (t', true) :=
  ⟨⟨by norm_num [QuadTree.capGE1],
    by norm_num [QuadTree.boundary, Boundary.contains, bW, qW1]⟩,
   insert_in_bounds_succeeds (QuadTree.Reachable.fresh bW 4)
     (by norm_num [QuadTree.capGE1])
     (by norm_num [QuadTree.boundary, Boundary.contains, bW, qW1])⟩

/-- Counterexample to C9 as stated: with capacity 0, inserting a particle
that lies inside the root boundary never returns, whatever recursion depth
is allowed. -/
theorem insert_cap_zero_diverges_cex :
    (QuadTree.leaf bW 0 [] : QuadTree).boundary.contains qW1 ∧
    QuadTree.insertNeverReturns (QuadTree.leaf bW 0 []) qW1 :=
  ⟨by norm_num [QuadTree.boundary, Boundary.contains, bW, qW1],
   fun fuel => QuadTree.insert_capZero_none (by trivial) (by trivial)
     (by norm_num [QuadTree.boundary, Boundary.contains, bW, qW1])⟩

/-- Claim C1: inserting a duplicate-free list of particles, all of whose
positions lie within the root boundary, into a fresh QuadTree with capacity
at least one succeeds, and querying with a range boundary that contains
every particle position returns exactly the inserted set: a permutation of
the inserted list, each particle occurring exactly once. -/
theorem query_returns_inserted_set (b r : Boundary) (cap : ℕ)
    (l : List Particle) (hcap : 1 ≤ cap) (hnd : l.Nodup)
    (hb : ∀ q ∈ l, b.contains q) (hr : ∀ q ∈ l, r.contains q) :
    ∃ fuel t, QuadTree.insertAll fuel (QuadTree.leaf b cap []) l = some t ∧
      (QuadTree.query t r []).Perm l ∧
      ∀ q ∈ l, (QuadTree.query t r []).count q = 1 := by
  obtain ⟨fuel, t, h⟩ := QuadTree.insertAll_success
    (t := QuadTree.leaf b cap []) (by trivial) (by exact hcap) hb
  obtain ⟨hperm, hg, hw, _⟩ := QuadTree.insertAll_spec
    (t := QuadTree.leaf b cap []) (by trivial)
    (by intro q hq; simp at hq) hb h
  have hstored : (QuadTree.storedList t).Perm l := by
    simpa [QuadTree.storedList] using hperm
  have hqe : QuadTree.query t r [] =
      (QuadTree.storedList t).filter (fun q => r.contains q) := by
    simpa using QuadTree.query_eq [] hw
  have hfil : (QuadTree.storedList t).filter (fun q => r.contains q) =
      QuadTree.storedList t := by
    rw [List.filter_eq_self]
    intro q hq
    simp only [decide_eq_true_eq]
    exact hr q (hstored.mem_iff.mp hq)
  have hqperm : (QuadTree.query t r []).Perm l := by
    rw [hqe, hfil]; exact hstored
  refine ⟨fuel, t, h, hqperm, ?_⟩
  intro q hq
  rw [hqperm.count_eq]
  exact List.count_eq_one_of_mem hnd hq

/-- Witness for C1 at a concrete two-particle insertion and full-range
query. -/
theorem query_returns_inserted_set_witness :
    ((1:ℕ) ≤ 1 ∧ ([qW1, qW2] : List Particle).Nodup ∧
      (∀ q ∈ [qW1, qW2], bW.contains q)) ∧
    ∃ fuel t,
      QuadTree.insertAll fuel (QuadTree.leaf bW 1 []) [qW1, qW2] = some t ∧
      (QuadTree.query t bW []).Perm [qW1, qW2] ∧
      ∀ q ∈ [qW1, qW2], (QuadTree.query t bW []).count q = 1 :=
  ⟨⟨le_refl 1, by norm_num [qW1, qW2],
    by norm_num [Boundary.contains, bW, qW1, qW2]⟩,
   query_returns_inserted_set bW bW 1 [qW1, qW2] (le_refl 1)
     (by norm_num [qW1, qW2])
     (by norm_num [Boundary.contains, bW, qW1, qW2])
     (by norm_num [Boundary.contains, bW, qW1, qW2])⟩

/-- Claim C7: after inserting a duplicate-free list of particles, all within
the root boundary, into a fresh QuadTree with capacity at least one, no
particle is stored in the local particle lists of two different nodes, and
each inserted particle is stored in exactly one node. -/
theorem particle_stored_in_one_node (b : Boundary) (cap : ℕ)
    (l : List Particle) (hcap : 1 ≤ cap) (hnd : l.Nodup)
    (hb : ∀ q ∈ l, b.contains q) :
    ∃ fuel t, QuadTree.insertAll fuel (QuadTree.leaf b cap []) l = some t ∧
      (∀ p : Particle, QuadTree.nodesStoring p t ≤ 1) ∧
      ∀ p ∈ l, QuadTree.nodesStoring p t = 1 := by
  obtain ⟨fuel, t, h⟩ := QuadTree.insertAll_success
    (t := QuadTree.leaf b cap []) (by trivial) (by exact hcap) hb
  obtain ⟨hperm, _, _, _⟩ := QuadTree.insertAll_spec
    (t := QuadTree.leaf b cap []) (by trivial)
    (by intro q hq; simp at hq) hb h
  have hstored : (QuadTree.storedList t).Perm l := by
    simpa [QuadTree.storedList] using hperm
  have hle : ∀ p : Particle, QuadTree.nodesStoring p t ≤ 1 := by
    intro p
    have h1 := QuadTree.nodesStoring_le_count (p := p) t
    have h2 := hstored.count_eq p
    have h3 := List.nodup_iff_count_le_one.mp hnd p
    omega
  refine ⟨fuel, t, h, hle, ?_⟩
  intro p hp
  have h1 : 1 ≤ QuadTree.nodesStoring p t :=
    QuadTree.mem_nodesStoring t (hstored.mem_iff.mpr hp)
  have h2 := hle p
  omega

/-- Witness for C7 at a concrete two-particle insertion. -/
theorem particle_stored_in_one_node_witness :
    ((1:ℕ) ≤ 1 ∧ ([qW1, qW2] : List Particle).Nodup ∧
      (∀ q ∈ [qW1, qW2], bW.contains q)) ∧
    ∃ fuel t,
      QuadTree.insertAll fuel (QuadTree.leaf bW 1 []) [qW1, qW2] = some t ∧
      (∀ p : Particle, QuadTree.nodesStoring p t ≤ 1) ∧
      ∀ p ∈ [qW1, qW2], QuadTree.nodesStoring p t = 1 :=
  ⟨⟨le_refl 1, by norm_num [qW1, qW2],
    by norm_num [Boundary.contains, bW, qW1, qW2]⟩,
   particle_stored_in_one_node bW 1 [qW1, qW2] (le_refl 1)
     (by norm_num [qW1, qW2])
     (by norm_num [Boundary.contains, bW, qW1, qW2])⟩

end VerletSim
